import Mathlib

/-! # Terminal Wordle: verification of `src/wordle.c`

A shallow embedding of the guess evaluator (`check_guess`), the input
validator (`validate_input`), the game loop (`play_game`), the dictionary
store (`get_dict_size`, `load_words`, `get_random_word`) and the command line
(`validate_args`, `main`) of `src/wordle.c`, with the properties of the
specification proved about them.

Conventions of the embedding.

* A C string is the list of its characters before the terminating NUL
  (`List Char`); the bytes it occupies in memory are `bytes s`, the characters
  followed by the NUL.
* A buffer is a `List Char`; reading `buf[i]` is `buf[i]?` and writing is
  `store`, both `none` outside the buffer.  A function returns `none` exactly
  when the C code would read or write outside an object (or dereference
  `NULL`).
* `toupper`, `tolower`, `isalpha`, `isupper`, `islower` are those of the "C"
  locale, which are `Char.toUpper`, `Char.toLower`, `Char.isAlpha`,
  `Char.isUpper`, `Char.isLower`.
* Standard input is the list of the successive results of `fgets`, one line
  each; `fgets` returns `NULL` (end of input) when the list is exhausted.  A
  file opened for reading is such a list too, and the values of `rand()` are a
  list of numbers.
* `int` values (`wordLength`, `maxGuesses`, `guessesLeft`) are natural numbers:
  the program only counts down from values in 3..9.
-/

namespace Wordle

/-! ## Constants of the source -/

/-- The macro `BLANK`, the character `-`. -/
def BLANK : Char := '-'

/-- The macro `NEWLINE`, the line terminator. -/
def NEWLINE : Char := '\n'

/-- The macro `NULL_BYTE`, the NUL character that ends a C string. -/
def NULL_BYTE : Char := Char.ofNat 0

/-! ## Memory -/

/-- The bytes occupied by a C string: its characters and the terminating NUL. -/
def bytes (s : List Char) : List Char := s ++ [NULL_BYTE]

/-- The C string held in a buffer: the characters before the first NUL. -/
def cstr (buf : List Char) : List Char := buf.takeWhile (fun c => c != NULL_BYTE)

/-- The assignment `buf[i] = c`; `none` when `i` is outside the buffer. -/
def store (buf : List Char) (i : Nat) (c : Char) : Option (List Char) :=
  if i < buf.length then some (buf.set i c) else none

/-! ## `check_guess` (lines 132-161) -/

/-- Body of the first loop of `check_guess` (lines 138-143), on the pair
`(result, tempAnswer)`. -/
def green_step (guess answer : List Char) (st : List Char × List Char) (i : Nat) :
    Option (List Char × List Char) := do
  let gi ← guess[i]?
  let ai ← answer[i]?
  if gi = ai then
    let result ← store st.1 i ai.toUpper
    let tempAnswer ← store st.2 i BLANK
    pure (result, tempAnswer)
  else
    let result ← store st.1 i BLANK
    pure (result, st.2)

/-- The inner loop of the second pass (lines 148-154) for a fixed `i`:
`yellow_scan guess answer i k j st` runs the iterations `j, j+1, .., j+k-1`,
leaving the loop at the `break`. -/
def yellow_scan (guess answer : List Char) (i : Nat) :
    Nat → Nat → List Char × List Char → Option (List Char × List Char)
  | 0, _, st => some st
  | k + 1, j, st => do
    let gi ← guess[i]?
    let tj ← st.2[j]?
    if gi = tj then
      let ai ← answer[i]?
      if gi ≠ ai then
        let result ← store st.1 i gi.toLower
        let tempAnswer ← store st.2 j BLANK
        pure (result, tempAnswer)
      else yellow_scan guess answer i k (j + 1) st
    else yellow_scan guess answer i k (j + 1) st

/-- Body of the second outer loop of `check_guess` (lines 147-155). -/
def yellow_step (guess answer : List Char) (wordLength : Nat)
    (st : List Char × List Char) (i : Nat) : Option (List Char × List Char) :=
  yellow_scan guess answer i wordLength 0 st

/-- The two passes of `check_guess` on the buffers: the final
`(result, tempAnswer)`.  `result` is `malloc`ed with `wordLength + 1` bytes of
indeterminate content (every one of them is written before the function
returns; the model starts them at NUL); `tempAnswer` is `strdup(answer)`. -/
def check_guess_passes (guess answer : List Char) (wordLength : Nat) :
    Option (List Char × List Char) := do
  let st0 := (List.replicate (wordLength + 1) NULL_BYTE, bytes answer)
  let st1 ← (List.range wordLength).foldlM (green_step (bytes guess) (bytes answer)) st0
  (List.range wordLength).foldlM (yellow_step (bytes guess) (bytes answer) wordLength) st1

/-- The function `char* check_guess(char* guess, char* answer, int wordLength)`:
the string it returns (line 157 ends it with a NUL). -/
def check_guess (guess answer : List Char) (wordLength : Nat) : Option (List Char) := do
  let st ← check_guess_passes guess answer wordLength
  let result ← store st.1 wordLength NULL_BYTE
  pure (cstr result)

/-! ## Verdicts -/

/-- The three verdicts of the specification. -/
inductive Verdict where
  | Correct
  | Present
  | Absent
  deriving DecidableEq

/-- How `print_guess` (lines 169-183) reads a character of the result: an
uppercase letter is printed green (Correct), a lowercase letter yellow
(Present), `BLANK` is printed as it is (Absent); any other character prints
nothing. -/
def verdictOf (c : Char) : Option Verdict :=
  if c.isUpper then some Verdict.Correct
  else if c.isLower then some Verdict.Present
  else if c = BLANK then some Verdict.Absent
  else none

/-- A word of the specification: lowercase alphabetic characters only. -/
def isWord (w : List Char) : Prop := ∀ c ∈ w, c.isLower = true

instance (w : List Char) : Decidable (isWord w) := by
  unfold isWord; infer_instance


/-! ## Counting letters (used to state the duplicate-letter rules)

The guess and the answer are read side by side as the list of pairs
`guess.zip answer`; the pair at position `k` is `(guess[k], answer[k])`. -/

/-- The number of positions `k < i` whose guess letter is `c` and is not an
exact match (`guess[k] = c` and `guess[k] ≠ answer[k]`). -/
def usedBefore (l : List (Char × Char)) (c : Char) (i : Nat) : Nat :=
  (l.take i).countP (fun p => p.1 == c && p.1 != p.2)

/-- The number of positions `j` whose answer letter is `c` and is not an exact
match (`answer[j] = c` and `guess[j] ≠ answer[j]`). -/
def remaining (l : List (Char × Char)) (c : Char) : Nat :=
  l.countP (fun p => p.2 == c && p.1 != p.2)

/-- The character that the first pass writes into `result` for the pair `p`
(lines 138-143). -/
def greenChar (p : Char × Char) : Char :=
  if p.1 = p.2 then p.2.toUpper else BLANK

/-- The character that the first pass leaves in `tempAnswer` for the pair `p`
(lines 138-143). -/
def tempChar (p : Char × Char) : Char :=
  if p.1 = p.2 then BLANK else p.2

/-- Closed form of the character of the result at position `k`, where `p` is
the pair at position `k` of `l`. -/
def verdictChar (l : List (Char × Char)) (k : Nat) (p : Char × Char) : Char :=
  if p.1 = p.2 then p.2.toUpper
  else if usedBefore l p.1 k < remaining l p.1 then p.1.toLower
  else BLANK

/-- Closed form of the string returned by `check_guess`, from the list of
pairs `guess.zip answer`. -/
def verdictChars (l : List (Char × Char)) : List Char :=
  l.enum.map (fun kp => verdictChar l kp.1 kp.2)

/-- Closed form of the verdict at position `k`, where `p` is the pair at
position `k` of `l`. -/
def closedVerdict (l : List (Char × Char)) (k : Nat) (p : Char × Char) : Verdict :=
  if p.1 = p.2 then Verdict.Correct
  else if usedBefore l p.1 k < remaining l p.1 then Verdict.Present
  else Verdict.Absent

/-- The verdict is Correct or Present. -/
def isCredited (c : Char) : Bool :=
  verdictOf c == some Verdict.Correct || verdictOf c == some Verdict.Present

/-- The number of positions `k < i` that are exact matches of the letter `c`
(`guess[k] = c` and `guess[k] = answer[k]`). -/
def exactBefore (l : List (Char × Char)) (c : Char) (i : Nat) : Nat :=
  (l.take i).countP (fun p => p.1 == c && p.1 == p.2)

/-- The number of positions of the guess that hold the letter `c` and whose
verdict in the result `r` is Correct or Present. -/
def creditedCount (g r : List Char) (c : Char) : Nat :=
  (g.zip r).countP (fun p => p.1 == c && isCredited p.2)

/-! ## The frequency-counting evaluator of the specification

Written from the words of the specification (design notes): "tally remaining
answer-letter counts after removing exact matches, then decrement-and-check
during the second pass".  It is compared with `check_guess`, which is written
from the source. -/

/-- The tally: for each letter, the number of answer letters at non-matching
positions. -/
def freq_tally : List (Char × Char) → Char → Nat
  | [], _ => 0
  | p :: rest, c => (if p.1 ≠ p.2 ∧ p.2 = c then 1 else 0) + freq_tally rest c

/-- The scan of the guess positions from left to right: an exact match is
Correct; another position is Present, and the tally of its letter is
decremented, when that tally is positive; otherwise it is Absent. -/
def freq_scan : List (Char × Char) → (Char → Nat) → List Verdict
  | [], _ => []
  | p :: rest, tally =>
    if p.1 = p.2 then Verdict.Correct :: freq_scan rest tally
    else if 0 < tally p.1 then
      Verdict.Present :: freq_scan rest (fun c => if c = p.1 then tally c - 1 else tally c)
    else Verdict.Absent :: freq_scan rest tally

/-- The frequency-counting evaluator. -/
def freq_evaluate (guess answer : List Char) : List Verdict :=
  freq_scan (guess.zip answer) (freq_tally (guess.zip answer))

/-! ## `validate_input` (lines 196-242) -/

/-- The three messages that `validate_input` prints, named as the errors of the
specification: line 207 (WrongLength), line 217 (NonAlphabetic), line 237
(NotInDictionary). -/
inductive ValidationError where
  | WrongLength
  | NonAlphabetic
  | NotInDictionary
  deriving DecidableEq

/-- What a call of `validate_input` leaves behind: the value returned, the C
string that the caller finds in its buffer afterwards (the callee edits the
buffer in place), and the messages printed, in order. -/
structure Validation where
  accepted : Bool
  buffer : List Char
  errors : List ValidationError
  deriving DecidableEq

/-- The call `strtok(s, NEWLINE_STRING)`: the leading line terminators are
skipped; if nothing is left the result is `NULL` (`none`); otherwise the token
runs up to the next line terminator, which is overwritten with a NUL.  The
result is the skipped prefix and the token; the returned pointer points at the
token, and the C string at the start of the buffer is then the skipped prefix
followed by the token. -/
def strtok (s : List Char) : Option (List Char × List Char) :=
  let skipped := s.takeWhile (fun c => c == NEWLINE)
  let rest := s.dropWhile (fun c => c == NEWLINE)
  if rest = [] then none else some (skipped, rest.takeWhile (fun c => c != NEWLINE))

/-- The loop of lines 215-224 on the string `guess`: the final value of
`checkingGuess` and the string after the loop (lowercased up to the first
character that is not a letter). -/
def alpha_loop : List Char → Bool × List Char
  | [] => (true, [])
  | c :: rest =>
    if c.isAlpha = false then (false, c :: rest)
    else ((alpha_loop rest).1, c.toLower :: (alpha_loop rest).2)

/-- The loop of lines 229-234: the final value of `foundWord`. -/
def dict_loop (guess : List Char) : List (List Char) → Bool
  | [] => false
  | w :: rest => if guess = w then true else dict_loop guess rest

/-- The function `bool validate_input(char* guess, int wordLength, char** words,
int dictSize)`; `words` is the list of the `dictSize` dictionary entries.  The
result is `none` when `strtok` returns `NULL`, which line 206 dereferences. -/
def validate_input (guess : List Char) (wordLength : Nat) (words : List (List Char)) :
    Option Validation := do
  let (skipped, token) ← if guess.length > 1 then strtok guess else some ([], guess)
  if token.length ≠ wordLength then
    pure { accepted := false, buffer := skipped ++ token,
           errors := [ValidationError.WrongLength] }
  else
    let checked := alpha_loop token
    if checked.1 = false then
      pure { accepted := false, buffer := skipped ++ checked.2,
             errors := [ValidationError.NonAlphabetic] }
    else if dict_loop checked.2 words then
      pure { accepted := true, buffer := skipped ++ checked.2, errors := [] }
    else
      pure { accepted := false, buffer := skipped ++ checked.2,
             errors := [ValidationError.NotInDictionary] }

/-- A line as `fgets` delivers it: not empty, with no line terminator except
possibly as its last character. -/
def isLine (l : List Char) : Prop := l ≠ [] ∧ NEWLINE ∉ l.dropLast

instance (l : List Char) : Decidable (isLine l) := by
  unfold isLine; infer_instance

/-- Step 1 of the validator of the specification: strip a single trailing line
terminator if present. -/
def stripped (l : List Char) : List Char :=
  if l.getLast? = some NEWLINE then l.dropLast else l

/-! ## `play_game` (lines 256-311) -/

/-- The variables of `play_game` that the loop changes, and the feedback rows
handed to `print_guess`, in order. -/
structure Session where
  guessesLeft : Nat
  correctGuess : Bool
  eofQuit : Bool
  rows : List (List Char)
  deriving DecidableEq

/-- The outcomes of the specification. -/
inductive Outcome where
  | InProgress
  | Won
  | LostExhausted
  | LostEarlyTermination
  deriving DecidableEq

/-- The outcome that a session state stands for. -/
def Session.outcome (s : Session) : Outcome :=
  if s.correctGuess then Outcome.Won
  else if s.eofQuit then Outcome.LostEarlyTermination
  else if s.guessesLeft = 0 then Outcome.LostExhausted
  else Outcome.InProgress

/-- The value returned at lines 303-310. -/
def exit_code (s : Session) : Nat :=
  if s.correctGuess then 0 else if s.eofQuit then 1 else 3

/-- The loop of lines 267-295.  The first argument is the standard input as the
successive results of `fgets`: each element is one line read, and `fgets`
returns `NULL` when the list is exhausted.  The result is the session state when
the loop is left. -/
def game_loop (wordLength : Nat) (words : List (List Char)) (answer : List Char) :
    List (List Char) → Session → Option Session
  | [], s =>
    if s.guessesLeft > 0 then some { s with eofQuit := true } else some s
  | line :: rest, s =>
    if s.guessesLeft > 0 then do
      let checkedGuess ← validate_input line wordLength words
      if checkedGuess.accepted then
        if checkedGuess.buffer = answer then
          some { s with correctGuess := true }
        else do
          let check ← check_guess checkedGuess.buffer answer wordLength
          game_loop wordLength words answer rest
            { s with guessesLeft := s.guessesLeft - 1, rows := s.rows ++ [check] }
      else game_loop wordLength words answer rest s
    else some s

/-- The session state with which `play_game` enters the loop (lines 258, 263,
264). -/
def initial_session (maxGuesses : Nat) : Session :=
  { guessesLeft := maxGuesses, correctGuess := false, eofQuit := false, rows := [] }

/-- The session state with which `play_game` leaves the loop; `words` and
`answer` are the dictionary and the secret answer that lines 259-262 obtain from
`load_words` and `get_random_word`. -/
def play_game_session (wordLength maxGuesses : Nat) (words : List (List Char))
    (answer : List Char) (stdin : List (List Char)) : Option Session :=
  game_loop wordLength words answer stdin (initial_session maxGuesses)

/-- The function `int play_game(int wordLength, int maxGuesses, char*
dictionaryLoc)`: the value returned, for the dictionary `words` and the secret
answer `answer` of lines 259-262. -/
def play_game (wordLength maxGuesses : Nat) (words : List (List Char))
    (answer : List Char) (stdin : List (List Char)) : Option Nat :=
  (play_game_session wordLength maxGuesses words answer stdin).map exit_code

/-- The validated, normalised guess that a line stands for, if the line is
accepted by `validate_input`. -/
def guessOf (wordLength : Nat) (words : List (List Char)) (line : List Char) :
    Option (List Char) :=
  match validate_input line wordLength words with
  | some v => if v.accepted then some v.buffer else none
  | none => none

/-- Whether `validate_input` rejects the line (returns false). -/
def rejects (wordLength : Nat) (words : List (List Char)) (line : List Char) : Bool :=
  match validate_input line wordLength words with
  | some v => !v.accepted
  | none => false

/-- The validated guesses of an input sequence, in order. -/
def validatedGuesses (wordLength : Nat) (words : List (List Char))
    (stdin : List (List Char)) : List (List Char) :=
  stdin.filterMap (guessOf wordLength words)

/-- The errors that the validator of the specification reports (section 4.2):
WrongLength if the stripped input has not the required length, otherwise
NonAlphabetic if some character is not a letter, otherwise NotInDictionary if
the lowercase form is not a dictionary entry, otherwise none. -/
def reportedErrors (raw : List Char) (n : Nat) (words : List (List Char)) :
    List ValidationError :=
  if (stripped raw).length ≠ n then [ValidationError.WrongLength]
  else if (stripped raw).all Char.isAlpha = false then [ValidationError.NonAlphabetic]
  else if (stripped raw).map Char.toLower ∈ words then []
  else [ValidationError.NotInDictionary]

/-- The value that `play_game` returns, from the validated guesses of the
input: 0 if the answer is among the first `maxGuesses` of them, otherwise 3 if
there are at least `maxGuesses` of them, otherwise 1. -/
def expected_code (maxGuesses : Nat) (answer : List Char) (guesses : List (List Char)) :
    Nat :=
  if answer ∈ guesses.take maxGuesses then 0
  else if maxGuesses ≤ guesses.length then 3
  else 1

/-! ## Results of the functions that may not return -/

/-- How a call ends: it returns a value; or it calls `exit` with a status; or
it is still looping when all the random draws given to the model are used up;
or it runs into undefined behaviour (an access outside an object, a `NULL`
pointer, a division by zero). -/
inductive Run (α : Type) where
  | returns (value : α)
  | exits (status : Nat)
  | spinning
  | fault
  deriving DecidableEq

/-! ## `load_words` (lines 41-63) and `get_dict_size` (lines 99-118)

A file opened for reading is, like the standard input, the list of the
successive results of `fgets` on it. -/

/-- The apostrophe, the character tested at line 53. -/
def APOSTROPHE : Char := Char.ofNat 39

/-- The loop of lines 105-114 on the characters of the file: the counter. -/
def count_newlines : List Char → Nat → Nat
  | [], counter => counter
  | next :: rest, counter =>
    if next = NEWLINE then count_newlines rest (counter + 1)
    else count_newlines rest counter

/-- The function `int get_dict_size(char* dictionaryLoc)`, on the file found at
that path: the number of line terminators in it. -/
def get_dict_size (dictionary : List (List Char)) : Nat :=
  count_newlines dictionary.flatten 0

/-- The inner loop of `load_words` (lines 50-57) for the line `loaded`:
`copy_loop loaded fuel j wordSize word` runs at most `fuel` iterations from the
index `j`, with the current `wordSize` and the buffer `word` (`words[i]`), and
gives the buffer and `wordSize` with which the loop is left.  Every iteration
adds one to `j` and `wordSize` never grows, so `wordSize - j` iterations are
enough. -/
def copy_loop (loaded : List Char) : Nat → Nat → Nat → List Char → Option (List Char × Nat)
  | 0, _, wordSize, word => some (word, wordSize)
  | fuel + 1, j, wordSize, word =>
    if j < wordSize then do
      let c ← (bytes loaded)[j]?
      let word1 ← store word j c.toLower
      if c.toLower = APOSTROPHE then do
        let word2 ← store word1 j 's'
        copy_loop loaded fuel (j + 1) (wordSize - 1) word2
      else copy_loop loaded fuel (j + 1) wordSize word1
    else some (word, wordSize)

/-- The body of the outer loop of `load_words` (lines 48-59) for the line
`loaded` that `fgets` has read: the string left in `words[i]`.  The buffer is
`malloc`ed with `strlen(loaded)` bytes of indeterminate content (the model
starts them at NUL); line 59 writes the NUL at `wordSize - 1`, outside the
buffer when `wordSize` is 0. -/
def load_word (loaded : List Char) : Option (List Char) := do
  let r ← copy_loop loaded loaded.length 0 loaded.length
    (List.replicate loaded.length NULL_BYTE)
  if r.2 = 0 then none
  else
    let word ← store r.1 (r.2 - 1) NULL_BYTE
    pure (cstr word)

/-- The function `char** load_words(FILE* dictionary, int dictSize)`: the
`dictSize` strings stored, from the lines that `fgets` reads one after the
other; at the end of the file `fgets` returns `NULL`, which line 48
dereferences. -/
def load_words : List (List Char) → Nat → Option (List (List Char))
  | _, 0 => some []
  | [], _ + 1 => none
  | loaded :: rest, dictSize + 1 => do
    let word ← load_word loaded
    let words ← load_words rest dictSize
    pure (word :: words)

/-! ## `get_random_word` (lines 75-88) -/

/-- The function `char* get_random_word(char** words, int size, int length)`.
The last argument is the list of the values that the successive calls of
`rand()` return; the result is `spinning` when the loop has not returned after
using all of them. -/
def get_random_word (words : List (List Char)) (size length : Nat) :
    List Nat → Run (List Char)
  | [] => Run.spinning
  | draw :: draws =>
    if size = 0 then Run.fault
    else
      match words[draw % size]? with
      | none => Run.fault
      | some testWord =>
        if testWord.length = length then Run.returns testWord
        else get_random_word words size length draws

/-- The whole of `int play_game(int wordLength, int maxGuesses, char*
dictionaryLoc)`, lines 256-311, on the file `dictionary` found at
`dictionaryLoc`: the dictionary is sized and loaded, the answer is drawn, and
the loop and the return of `play_game` follow. -/
def play_game_from_file (wordLength maxGuesses : Nat) (dictionary : List (List Char))
    (draws : List Nat) (stdin : List (List Char)) : Run Nat :=
  match load_words dictionary (get_dict_size dictionary) with
  | none => Run.fault
  | some words =>
    match get_random_word words (get_dict_size dictionary) wordLength draws with
    | Run.returns answer =>
      match play_game wordLength maxGuesses words answer stdin with
      | some gameResult => Run.returns gameResult
      | none => Run.fault
    | Run.exits status => Run.exits status
    | Run.spinning => Run.spinning
    | Run.fault => Run.fault

/-! ## `validate_args` (lines 323-371) and `main` (lines 373-397) -/

/-- The macro `MIN`. -/
def MIN : Int := 3

/-- The macro `MAX`. -/
def MAX : Int := 9

/-- The macro `DEFAULT_LEN`. -/
def DEFAULT_LEN : Nat := 5

/-- The macro `DEFAULT_MAX`. -/
def DEFAULT_MAX : Nat := 6

/-- The string "-len". -/
def len_flag : List Char := ['-', 'l', 'e', 'n']

/-- The string "-max". -/
def max_flag : List Char := ['-', 'm', 'a', 'x']

/-- The string "/usr/share/dict/words". -/
def default_dictionary : List Char :=
  ['/', 'u', 's', 'r', '/', 's', 'h', 'a', 'r', 'e', '/', 'd', 'i', 'c', 't', '/',
    'w', 'o', 'r', 'd', 's']

/-- The function `isspace` of the "C" locale: the space and the characters 9
to 13. -/
def isspace (c : Char) : Bool :=
  c.toNat = 32 || (9 ≤ c.toNat && c.toNat ≤ 13)

/-- The value of the leading decimal digits of a string, after the digits
already read have given `acc`. -/
def digits_value : List Char → Nat → Nat
  | [], acc => acc
  | c :: rest, acc =>
    if c.isDigit then digits_value rest (10 * acc + (c.toNat - 48)) else acc

/-- The library function `atoi`: white space is skipped, a sign is read, and
the value of the decimal digits that follow is returned (0 when there is none).
Values outside `int` are not modelled: the program applies `atoi` only to
strings of at most one character. -/
def atoi (s : List Char) : Int :=
  let t := s.dropWhile isspace
  if t.head? = some '-' then - (digits_value t.tail 0 : Int)
  else if t.head? = some '+' then (digits_value t.tail 0 : Int)
  else (digits_value t 0 : Int)

/-- The variables that `validate_args` updates through its pointer arguments.
The two numbers are natural numbers: they are 5 and 6 or values that have
passed the range test of lines 337-338. -/
structure Settings where
  wordLength : Nat
  maxGuesses : Nat
  dictionaryLoc : List Char
  deriving DecidableEq

/-- The settings with which `main` calls `validate_args` (lines 374-376). -/
def default_settings : Settings :=
  { wordLength := DEFAULT_LEN, maxGuesses := DEFAULT_MAX,
    dictionaryLoc := default_dictionary }

/-- The test of lines 334-339 (and 346-351): `next` is `argv[i + 1]`, which is
`NULL` after the last argument; `current` is the variable of the flag and
`initial` the constant it is compared with (5 or 6). -/
def flag_value_bad (next : Option (List Char)) (current initial : Nat) : Bool :=
  match next with
  | none => true
  | some v =>
    decide (v.length > 1) || decide (atoi v = 0) || decide (atoi v < MIN) ||
      decide (atoi v > MAX) || decide (current ≠ initial)

/-- The body of the loop of `validate_args` (lines 333-368) for the index `i`:
the settings after it, or the exit with status 1 after the usage message. -/
def args_step (argv : List (List Char)) (st : Settings) (i : Nat) : Run Settings :=
  match argv[i]? with
  | none => Run.fault
  | some arg =>
    if arg = len_flag then
      if flag_value_bad argv[i + 1]? st.wordLength 5 then Run.exits 1
      else Run.returns { st with wordLength := (atoi (argv[i + 1]?.getD [])).toNat }
    else if arg = max_flag then
      if flag_value_bad argv[i + 1]? st.maxGuesses 6 then Run.exits 1
      else Run.returns { st with maxGuesses := (atoi (argv[i + 1]?.getD [])).toNat }
    else if i > 0 then
      if argv[i - 1]? = some len_flag ∨ argv[i - 1]? = some max_flag then Run.returns st
      else if st.dictionaryLoc ≠ default_dictionary ∨ arg.head? = some '-' then Run.exits 1
      else Run.returns { st with dictionaryLoc := arg }
    else Run.returns st

/-- The loop of `validate_args` (lines 332-369) over the indices given. -/
def args_loop (argv : List (List Char)) : List Nat → Settings → Run Settings
  | [], st => Run.returns st
  | i :: rest, st =>
    match args_step argv st i with
    | Run.returns st2 => args_loop argv rest st2
    | other => other

/-- The function `void validate_args(int argc, char** argv, int* wordLength,
int* maxGuesses, char** dictionaryLoc)`: `argv` is the list of the `argc`
arguments and `st` holds the three variables pointed to; the result is the
variables after the call, or the exit with status 1. -/
def validate_args (argv : List (List Char)) (st : Settings) : Run Settings :=
  if argv.length > 6 then Run.exits 1
  else if argv.length > 1 then args_loop argv (List.range argv.length) st
  else Run.returns st

/-- The function `int main(int argc, char** argv)`: the exit status of the
process.  `fs` is the file system, which gives the lines of the file at a path
when `fopen` can open it. -/
def main (argv : List (List Char)) (fs : List Char → Option (List (List Char)))
    (draws : List Nat) (stdin : List (List Char)) : Run Nat :=
  match validate_args argv default_settings with
  | Run.returns st =>
    match fs st.dictionaryLoc with
    | none => Run.returns 2
    | some dictionary =>
      if st.dictionaryLoc = [] then Run.returns 2
      else
        match play_game_from_file st.wordLength st.maxGuesses dictionary draws stdin with
        | Run.returns gameResult => if gameResult = 0 then Run.returns 0 else Run.returns 3
        | other => other
  | Run.exits status => Run.exits status
  | Run.spinning => Run.spinning
  | Run.fault => Run.fault

/-! ## The examples of the specification -/

/-- The guess of Example 1. -/
def crane : List Char := ['c', 'r', 'a', 'n', 'e']

/-- The answer of Example 1. -/
def crate : List Char := ['c', 'r', 'a', 't', 'e']

/-- The guess of Example 2. -/
def allee : List Char := ['a', 'l', 'l', 'e', 'e']

/-- The answer of Example 2. -/
def label : List Char := ['l', 'a', 'b', 'e', 'l']

/-- The line "CrAnE" followed by a line terminator. -/
def line_CrAnE : List Char := ['C', 'r', 'A', 'n', 'E', '\n']

/-- The line "crate" followed by a line terminator. -/
def line_crate : List Char := ['c', 'r', 'a', 't', 'e', '\n']

/-- The line "cat" followed by a line terminator. -/
def line_cat : List Char := ['c', 'a', 't', '\n']

/-- The line "12345" followed by a line terminator. -/
def line_12345 : List Char := ['1', '2', '3', '4', '5', '\n']

/-- A dictionary of two words. -/
def smallDict : List (List Char) := [crane, crate]

/-- The dictionary line "don't" followed by a line terminator. -/
def line_dont : List Char := ['d', 'o', 'n', APOSTROPHE, 't', '\n']

/-- The dictionary line "cat's" followed by a line terminator. -/
def line_cats : List Char := ['c', 'a', 't', APOSTROPHE, 's', '\n']

/-- The dictionary line "Crane" followed by a line terminator. -/
def line_Crane : List Char := ['C', 'r', 'a', 'n', 'e', '\n']

/-- The program name. -/
def wordle : List Char := ['w', 'o', 'r', 'd', 'l', 'e']

/-- The path of a dictionary file. -/
def dict_path : List Char := ['d', 'i', 'c', 't']

/-- A file system with one readable file, at `dict_path`, that holds the line
"crate". -/
def one_file : List Char → Option (List (List Char)) :=
  fun path => if path = dict_path then some [line_crate] else none

/-! # Theorems -/

/-! ## Characters -/

theorem isLower_iff (c : Char) : c.isLower = true ↔ 97 ≤ c.toNat ∧ c.toNat ≤ 122 := by
  simp [Char.isLower, Char.toNat, UInt32.le_def, UInt32.toNat, BitVec.le_def]

theorem isUpper_iff (c : Char) : c.isUpper = true ↔ 65 ≤ c.toNat ∧ c.toNat ≤ 90 := by
  simp [Char.isUpper, Char.toNat, UInt32.le_def, UInt32.toNat, BitVec.le_def]

theorem toNat_ofNat_small (n : Nat) (h : n < 55296) : (Char.ofNat n).toNat = n := by
  unfold Char.ofNat
  have hv : n.isValidChar := Or.inl h
  simp [hv, Char.ofNatAux, Char.toNat, UInt32.toNat]

theorem isUpper_toUpper (c : Char) (h : c.isLower = true) : c.toUpper.isUpper = true := by
  rw [isLower_iff] at h
  rw [isUpper_iff]
  unfold Char.toUpper
  simp only [ge_iff_le, h, and_self, if_true]
  rw [toNat_ofNat_small _ (by omega)]
  omega

theorem toLower_of_isLower (c : Char) (h : c.isLower = true) : c.toLower = c := by
  rw [isLower_iff] at h
  unfold Char.toLower
  simp only [ge_iff_le]
  rw [if_neg (by omega)]

theorem isUpper_false_of_isLower (c : Char) (h : c.isLower = true) : c.isUpper = false := by
  rw [isLower_iff] at h
  rw [Bool.eq_false_iff, ne_eq, isUpper_iff]
  omega

theorem ne_BLANK_of_isLower (c : Char) (h : c.isLower = true) : c ≠ BLANK := by
  intro hc
  rw [hc] at h
  exact absurd h (by decide)

theorem ne_NULL_BYTE_of_isLower (c : Char) (h : c.isLower = true) : c ≠ NULL_BYTE := by
  intro hc
  rw [hc] at h
  exact absurd h (by decide)

theorem ne_NULL_BYTE_of_isUpper (c : Char) (h : c.isUpper = true) : c ≠ NULL_BYTE := by
  intro hc
  rw [hc] at h
  exact absurd h (by decide)

theorem verdictOf_of_isUpper (c : Char) (h : c.isUpper = true) :
    verdictOf c = some Verdict.Correct := by
  simp [verdictOf, h]

theorem verdictOf_of_isLower (c : Char) (h : c.isLower = true) :
    verdictOf c = some Verdict.Present := by
  simp [verdictOf, h, isUpper_false_of_isLower c h]

theorem verdictOf_BLANK : verdictOf BLANK = some Verdict.Absent := by decide

/-! ## Memory lemmas -/

theorem bytes_length (s : List Char) : (bytes s).length = s.length + 1 := by
  simp [bytes]

theorem bytes_getElem?_lt (s : List Char) (k : Nat) (h : k < s.length) :
    (bytes s)[k]? = s[k]? := by
  simp [bytes, List.getElem?_append_left h]

theorem bytes_getElem?_length (s : List Char) : (bytes s)[s.length]? = some NULL_BYTE := by
  simp [bytes]

theorem store_eq_some (buf : List Char) (i : Nat) (c : Char) (h : i < buf.length) :
    store buf i c = some (buf.set i c) := by
  simp [store, h]

theorem zip_getElem?_some (g a : List Char) (k : Nat) (x y : Char)
    (hx : g[k]? = some x) (hy : a[k]? = some y) : (g.zip a)[k]? = some (x, y) := by
  simp [List.getElem?_zip_eq_some, hx, hy]

/-! ## The first pass -/

theorem green_step_eq (G A : List Char) (st : List Char × List Char) (i : Nat) (x y : Char)
    (hx : G[i]? = some x) (hy : A[i]? = some y)
    (h1 : i < st.1.length) (h2 : i < st.2.length) :
    green_step G A st i =
      some (st.1.set i (greenChar (x, y)), if x = y then st.2.set i BLANK else st.2) := by
  unfold green_step greenChar
  by_cases hxy : x = y <;> simp [hx, hy, hxy, store, h1, h2]

/-- Loop invariant of the first pass after `i` iterations. -/
theorem green_loop_inv (g a : List Char) (n : Nat) (hg : g.length = n) (ha : a.length = n)
    (i : Nat) (hi : i ≤ n) :
    ∃ st, (List.range i).foldlM (green_step (bytes g) (bytes a))
        (List.replicate (n + 1) NULL_BYTE, bytes a) = some st ∧
      st.1.length = n + 1 ∧ st.2.length = n + 1 ∧
      (∀ k, k < i → st.1[k]? = ((g.zip a)[k]?).map greenChar) ∧
      (∀ k, k < i → st.2[k]? = ((g.zip a)[k]?).map tempChar) ∧
      (∀ k, i ≤ k → st.2[k]? = (bytes a)[k]?) := by
  induction i with
  | zero =>
    refine ⟨_, rfl, ?_, ?_, ?_, ?_, ?_⟩ <;> simp [bytes_length, ha]
  | succ i ih =>
    obtain ⟨st, hst, hl1, hl2, hr, ht, hrest⟩ := ih (by omega)
    have hig : i < g.length := by omega
    have hia : i < a.length := by omega
    have hx : (bytes g)[i]? = some g[i] := by
      rw [bytes_getElem?_lt g i hig]; simp
    have hy : (bytes a)[i]? = some a[i] := by
      rw [bytes_getElem?_lt a i hia]; simp
    have hz : (g.zip a)[i]? = some (g[i], a[i]) :=
      zip_getElem?_some g a i _ _ (by simp) (by simp)
    have hstep := green_step_eq (bytes g) (bytes a) st i g[i] a[i] hx hy
      (by omega) (by omega)
    refine ⟨(st.1.set i (greenChar (g[i], a[i])),
      if g[i] = a[i] then st.2.set i BLANK else st.2), ?_, ?_, ?_, ?_, ?_, ?_⟩
    · rw [List.range_succ, List.foldlM_append, hst]
      simp only [Option.bind_eq_bind, Option.some_bind, List.foldlM_cons, List.foldlM_nil]
      rw [hstep]; rfl
    · simp [hl1]
    · split <;> simp [hl2]
    · intro k hk
      rcases Nat.lt_succ_iff_lt_or_eq.mp hk with h | h
      · simp only [List.getElem?_set]
        rw [if_neg (by omega)]; exact hr k h
      · subst h
        simp [List.getElem?_set, hl1, hi, hz]
        omega
    · intro k hk
      rcases Nat.lt_succ_iff_lt_or_eq.mp hk with h | h
      · have := ht k h
        split
        · simp only [List.getElem?_set]
          rw [if_neg (by omega)]; exact this
        · exact this
      · subst h
        by_cases hxy : g[k] = a[k]
        · simp [hxy, List.getElem?_set, hl2, hz, tempChar]
          omega
        · simp only [hxy, if_false, hz, Option.map_some', tempChar]
          rw [hrest k (le_refl _), hy]
    · intro k hk
      split
      · simp only [List.getElem?_set]
        rw [if_neg (by omega)]; exact hrest k (by omega)
      · exact hrest k (by omega)

/-! ## The second pass -/

theorem yellow_scan_match (G A : List Char) (i : Nat) (x : Char)
    (hx : G[i]? = some x) (hy : A[i]? = some x) (k : Nat) :
    ∀ (j : Nat) (st : List Char × List Char), j + k ≤ st.2.length →
      yellow_scan G A i k j st = some st := by
  induction k with
  | zero => intro j st _; rfl
  | succ k ih =>
    intro j st hj
    have hlt : j < st.2.length := by omega
    have hget : st.2[j]? = some st.2[j] := by simp
    unfold yellow_scan
    simp only [hx, hy, hget, Option.bind_eq_bind, Option.some_bind, ne_eq, not_true_eq_false,
      if_false, ite_self]
    exact ih (j + 1) st (by omega)

theorem yellow_scan_search (G A : List Char) (i : Nat) (x y : Char)
    (hx : G[i]? = some x) (hy : A[i]? = some y) (hxy : x ≠ y) (k : Nat) :
    ∀ (j : Nat) (st : List Char × List Char), i < st.1.length → j + k ≤ st.2.length →
      (yellow_scan G A i k j st = some st ∧
          ∀ m, j ≤ m → m < j + k → st.2[m]? ≠ some x) ∨
        ∃ j0, j ≤ j0 ∧ j0 < j + k ∧ st.2[j0]? = some x ∧
          yellow_scan G A i k j st = some (st.1.set i x.toLower, st.2.set j0 BLANK) := by
  induction k with
  | zero =>
    intro j st _ _
    left
    exact ⟨rfl, fun m h1 h2 => by omega⟩
  | succ k ih =>
    intro j st hi hj
    have hlt : j < st.2.length := by omega
    have hget : st.2[j]? = some st.2[j] := by simp
    by_cases hfound : x = st.2[j]
    · right
      refine ⟨j, le_refl _, by omega, by rw [hget, hfound], ?_⟩
      unfold yellow_scan
      simp [hx, hy, hget, hfound.symm, hxy, store, hi, hlt]
    · have hstep : yellow_scan G A i (k + 1) j st = yellow_scan G A i k (j + 1) st := by
        conv_lhs => unfold yellow_scan
        simp [hx, hget, hfound]
      rcases ih (j + 1) st hi (by omega) with ⟨h1, h2⟩ | ⟨j0, h1, h2, h3, h4⟩
      · left
        refine ⟨by rw [hstep, h1], ?_⟩
        intro m hm1 hm2
        rcases Nat.eq_or_lt_of_le hm1 with h | h
        · subst h
          rw [hget]
          intro hc
          exact hfound (Option.some.inj hc).symm
        · exact h2 m (by omega) (by omega)
      · right
        exact ⟨j0, by omega, by omega, h3, by rw [hstep, h4]⟩

theorem count_take_set_blank (t : List Char) (n j0 : Nat) (x c : Char)
    (hj : j0 < n) (hn : n ≤ t.length) (hx : t[j0]? = some x) (hc : c ≠ BLANK) :
    List.count c ((t.set j0 BLANK).take n) =
      List.count c (t.take n) - if x = c then 1 else 0 := by
  have hlen : j0 < (t.take n).length := by
    rw [List.length_take]; omega
  have hget : (t.take n)[j0] = x := by
    have h1 : (t.take n)[j0]? = some x := by
      rw [List.getElem?_take_of_lt hj]; exact hx
    have h2 : (t.take n)[j0]? = some (t.take n)[j0] := List.getElem?_eq_getElem hlen
    rw [h2] at h1
    exact Option.some.inj h1
  rw [List.set_take, List.count_set _ _ _ _ hlen, hget]
  have hb : (BLANK == c) = false := by
    simp only [beq_eq_false_iff_ne, ne_eq]
    exact fun h => hc h.symm
  simp [hb]

/-- One iteration of the outer loop of the second pass. -/
theorem yellow_step_spec (G A : List Char) (n i : Nat) (x y : Char)
    (hx : G[i]? = some x) (hy : A[i]? = some y) (hin : i < n)
    (st : List Char × List Char) (h1 : st.1.length = n + 1) (h2 : st.2.length = n + 1)
    (hxb : x ≠ y → x ≠ BLANK) :
    ∃ st2, yellow_step G A n st i = some st2 ∧
      st2.1.length = n + 1 ∧ st2.2.length = n + 1 ∧
      st2.1 = (if x ≠ y ∧ 0 < List.count x (st.2.take n)
        then st.1.set i x.toLower else st.1) ∧
      ∀ c, c ≠ BLANK → List.count c (st2.2.take n) =
        List.count c (st.2.take n) - if x ≠ y ∧ x = c then 1 else 0 := by
  unfold yellow_step
  by_cases hxy : x = y
  · subst hxy
    refine ⟨st, yellow_scan_match G A i x hx hy n 0 st (by omega), h1, h2, ?_, ?_⟩
    · simp
    · intro c _; simp
  · rcases yellow_scan_search G A i x y hx hy hxy n 0 st (by omega) (by omega) with
      ⟨hs, hnone⟩ | ⟨j0, _, hj0, hget, hs⟩
    · have hzero : List.count x (st.2.take n) = 0 := by
        rw [List.count_eq_zero, List.mem_iff_getElem?]
        rintro ⟨m, hm⟩
        rw [List.getElem?_take] at hm
        split at hm
        · exact hnone m (by omega) (by omega) hm
        · exact absurd hm (by simp)
      refine ⟨st, hs, h1, h2, ?_, ?_⟩
      · simp [hzero]
      · intro c _
        by_cases hc : x = c
        · subst hc; simp [hzero]
        · simp [hc]
    · have hpos : 0 < List.count x (st.2.take n) := by
        rw [List.count_pos_iff, List.mem_iff_getElem?]
        exact ⟨j0, by rw [List.getElem?_take_of_lt (by omega)]; exact hget⟩
      refine ⟨_, hs, by simp [h1], by simp [h2], ?_, ?_⟩
      · simp [hxy, hpos]
      · intro c hc
        rw [count_take_set_blank st.2 n j0 x c (by omega) (by omega) hget hc]
        simp [hxy]

theorem usedBefore_zero (l : List (Char × Char)) (c : Char) : usedBefore l c 0 = 0 := by
  simp [usedBefore]

theorem usedBefore_succ (l : List (Char × Char)) (c : Char) (i : Nat) (p : Char × Char)
    (hp : l[i]? = some p) :
    usedBefore l c (i + 1) = usedBefore l c i + if p.1 ≠ p.2 ∧ p.1 = c then 1 else 0 := by
  unfold usedBefore
  rw [List.take_succ, hp, List.countP_append]
  congr 1
  by_cases h1 : p.1 = c <;> by_cases h2 : p.1 = p.2 <;> simp [List.countP_cons, h1, h2]

theorem count_map_tempChar (l : List (Char × Char)) (c : Char) (hc : c ≠ BLANK) :
    List.count c (l.map tempChar) = remaining l c := by
  unfold remaining
  rw [List.count_eq_countP, List.countP_map]
  apply List.countP_congr
  intro p _
  by_cases h : p.1 = p.2
  · simp [tempChar, h]
    exact fun hb => hc hb.symm
  · simp [tempChar, h]

/-- Loop invariant of the second pass after `i` iterations. -/
theorem yellow_loop_inv (g a : List Char) (n : Nat) (hg : g.length = n) (ha : a.length = n)
    (hgb : ∀ c ∈ g, c ≠ BLANK) (st1 : List Char × List Char)
    (hl1 : st1.1.length = n + 1) (hl2 : st1.2.length = n + 1)
    (hr1 : ∀ k, k < n → st1.1[k]? = ((g.zip a)[k]?).map greenChar)
    (ht1 : st1.2.take n = (g.zip a).map tempChar)
    (i : Nat) (hi : i ≤ n) :
    ∃ st, (List.range i).foldlM (yellow_step (bytes g) (bytes a) n) st1 = some st ∧
      st.1.length = n + 1 ∧ st.2.length = n + 1 ∧
      (∀ k, k < i → st.1[k]? = ((g.zip a)[k]?).map (verdictChar (g.zip a) k)) ∧
      (∀ k, i ≤ k → k < n → st.1[k]? = ((g.zip a)[k]?).map greenChar) ∧
      (∀ c, c ≠ BLANK → List.count c (st.2.take n) =
        remaining (g.zip a) c - usedBefore (g.zip a) c i) := by
  induction i with
  | zero =>
    refine ⟨st1, rfl, hl1, hl2, ?_, ?_, ?_⟩
    · intro k hk; omega
    · intro k _ hk; exact hr1 k hk
    · intro c hc
      rw [ht1, count_map_tempChar _ c hc, usedBefore_zero]; rfl
  | succ i ih =>
    obtain ⟨st, hst, h1, h2, hdone, htodo, hcount⟩ := ih (by omega)
    have hig : i < g.length := by omega
    have hia : i < a.length := by omega
    have hx : (bytes g)[i]? = some g[i] := by
      rw [bytes_getElem?_lt g i hig]; simp
    have hy : (bytes a)[i]? = some a[i] := by
      rw [bytes_getElem?_lt a i hia]; simp
    have hz : (g.zip a)[i]? = some (g[i], a[i]) :=
      zip_getElem?_some g a i _ _ (by simp) (by simp)
    have hxb : g[i] ≠ a[i] → g[i] ≠ BLANK := fun _ => hgb _ (List.getElem_mem hig)
    obtain ⟨st2, hs, hs1, hs2, hres, hcnt⟩ :=
      yellow_step_spec (bytes g) (bytes a) n i g[i] a[i] hx hy (by omega) st h1 h2 hxb
    have hother : ∀ k, k ≠ i → st2.1[k]? = st.1[k]? := by
      intro k hk
      rw [hres]
      split
      · rw [List.getElem?_set, if_neg (fun h => hk h.symm)]
      · rfl
    refine ⟨st2, ?_, hs1, hs2, ?_, ?_, ?_⟩
    · rw [List.range_succ, List.foldlM_append, hst]
      simp only [Option.bind_eq_bind, Option.some_bind, List.foldlM_cons, List.foldlM_nil]
      rw [hs]; rfl
    · intro k hk
      rcases Nat.lt_succ_iff_lt_or_eq.mp hk with h | h
      · rw [hother k (by omega)]; exact hdone k h
      · subst h
        rw [hz, Option.map_some']
        by_cases hxy : g[k] = a[k]
        · have : st2.1 = st.1 := by rw [hres]; simp [hxy]
          rw [this, htodo k (le_refl _) (by omega), hz, Option.map_some']
          simp [greenChar, verdictChar, hxy]
        · have hc := hcount g[k] (hxb hxy)
          by_cases hpos : 0 < List.count g[k] (st.2.take n)
          · have : st2.1 = st.1.set k g[k].toLower := by rw [hres]; simp [hxy, hpos]
            rw [this, List.getElem?_set, if_pos rfl, if_pos (by omega)]
            have hlt : usedBefore (g.zip a) g[k] k < remaining (g.zip a) g[k] := by omega
            simp [verdictChar, hxy, hlt]
          · have : st2.1 = st.1 := by rw [hres]; simp [hpos]
            rw [this, htodo k (le_refl _) (by omega), hz, Option.map_some']
            have hlt : ¬ usedBefore (g.zip a) g[k] k < remaining (g.zip a) g[k] := by omega
            simp [greenChar, verdictChar, hxy, hlt]
    · intro k hk1 hk2
      rw [hother k (by omega)]; exact htodo k (by omega) hk2
    · intro c hc
      rw [hcnt c hc, hcount c hc, usedBefore_succ _ c i _ hz, Nat.sub_sub]

/-! ## The closed form of `check_guess` -/

theorem verdictChars_length (l : List (Char × Char)) : (verdictChars l).length = l.length := by
  simp [verdictChars]

theorem verdictChars_getElem? (l : List (Char × Char)) (k : Nat) :
    (verdictChars l)[k]? = (l[k]?).map (verdictChar l k) := by
  unfold verdictChars
  rw [List.getElem?_map, List.getElem?_enum]
  cases l[k]? <;> simp

theorem cstr_append_nul (xs : List Char) (h : ∀ c ∈ xs, c ≠ NULL_BYTE) :
    cstr (xs ++ [NULL_BYTE]) = xs := by
  unfold cstr
  induction xs with
  | nil => simp [List.takeWhile]
  | cons x xs ih =>
    have hx : x ≠ NULL_BYTE := h x (List.mem_cons_self _ _)
    simp only [List.cons_append, List.takeWhile_cons, bne_iff_ne, ne_eq, hx, not_false_eq_true,
      if_true]
    rw [ih (fun c hc => h c (List.mem_cons_of_mem _ hc))]

/-- The second pass ends with the closed form in `result[0..n-1]`; this needs
only that the guess does not contain `BLANK`. -/
theorem check_guess_passes_spec (g a : List Char) (n : Nat) (hg : g.length = n)
    (ha : a.length = n) (hgb : ∀ c ∈ g, c ≠ BLANK) :
    ∃ st, check_guess_passes g a n = some st ∧ st.1.length = n + 1 ∧
      ∀ k, k < n → st.1[k]? = (verdictChars (g.zip a))[k]? := by
  obtain ⟨st1, hst1, hl1, hl2, hr1, ht1, _⟩ := green_loop_inv g a n hg ha n (le_refl _)
  have hzl : (g.zip a).length = n := by simp [hg, ha]
  have htake : st1.2.take n = (g.zip a).map tempChar := by
    apply List.ext_getElem?
    intro k
    rw [List.getElem?_take, List.getElem?_map]
    split
    · next h => exact ht1 k h
    · next h =>
      rw [List.getElem?_eq_none (by omega)]; rfl
  obtain ⟨st, hst, h1, _, hdone, _, _⟩ :=
    yellow_loop_inv g a n hg ha hgb st1 hl1 hl2 hr1 htake n (le_refl _)
  refine ⟨st, ?_, h1, ?_⟩
  · unfold check_guess_passes
    simp only [hst1, Option.bind_eq_bind, Option.some_bind]
    exact hst
  · intro k hk
    rw [hdone k hk, verdictChars_getElem?]

theorem check_guess_of_chars (g a : List Char) (n : Nat) (hg : g.length = n)
    (ha : a.length = n) (hgb : ∀ c ∈ g, c ≠ BLANK)
    (hnul : ∀ c ∈ verdictChars (g.zip a), c ≠ NULL_BYTE) :
    check_guess g a n = some (verdictChars (g.zip a)) := by
  obtain ⟨st, hst, h1, hres⟩ := check_guess_passes_spec g a n hg ha hgb
  have hzl : (g.zip a).length = n := by simp [hg, ha]
  have hbuf : st.1.set n NULL_BYTE = verdictChars (g.zip a) ++ [NULL_BYTE] := by
    apply List.ext_getElem?
    intro k
    rw [List.getElem?_set]
    rcases Nat.lt_trichotomy k n with h | h | h
    · rw [if_neg (by omega), hres k h,
        List.getElem?_append_left (by rw [verdictChars_length]; omega)]
    · subst h
      rw [if_pos rfl, if_pos (by omega),
        List.getElem?_append_right (by rw [verdictChars_length]; omega)]
      simp [verdictChars_length, hzl]
    · rw [if_neg (by omega), List.getElem?_eq_none (by omega),
        List.getElem?_eq_none (by simp [verdictChars_length, hzl]; omega)]
  unfold check_guess
  simp only [hst, Option.bind_eq_bind, Option.some_bind, store, h1, Nat.lt_succ_self, if_true,
    hbuf, Option.pure_def]
  rw [cstr_append_nul _ hnul]

theorem verdictChar_cases (l : List (Char × Char)) (k : Nat) (p : Char × Char) :
    verdictChar l k p = p.2.toUpper ∨ verdictChar l k p = p.1.toLower ∨
      verdictChar l k p = BLANK := by
  unfold verdictChar
  split
  · exact Or.inl rfl
  · split
    · exact Or.inr (Or.inl rfl)
    · exact Or.inr (Or.inr rfl)

/-- On words, `check_guess` returns the closed form. -/
theorem check_guess_eq (g a : List Char) (n : Nat) (hg : g.length = n) (ha : a.length = n)
    (hgw : isWord g) (haw : isWord a) :
    check_guess g a n = some (verdictChars (g.zip a)) := by
  apply check_guess_of_chars g a n hg ha (fun c hc => ne_BLANK_of_isLower c (hgw c hc))
  intro c hc
  obtain ⟨k, hk⟩ := List.mem_iff_getElem?.mp hc
  rw [verdictChars_getElem?] at hk
  cases hp : (g.zip a)[k]? with
  | none => rw [hp] at hk; exact absurd hk (by simp)
  | some p =>
    rw [hp, Option.map_some'] at hk
    have hc2 := Option.some.inj hk
    have hmem : p ∈ g.zip a := List.mem_iff_getElem?.mpr ⟨k, hp⟩
    have hp1 : p.1.isLower = true := hgw _ (List.of_mem_zip hmem).1
    have hp2 : p.2.isLower = true := haw _ (List.of_mem_zip hmem).2
    rcases verdictChar_cases (g.zip a) k p with h | h | h
    · rw [← hc2, h]
      exact ne_NULL_BYTE_of_isUpper _ (isUpper_toUpper _ hp2)
    · rw [← hc2, h, toLower_of_isLower _ hp1]
      exact ne_NULL_BYTE_of_isLower _ hp1
    · rw [← hc2, h]; decide

theorem verdictOf_verdictChar (l : List (Char × Char)) (k : Nat) (p : Char × Char)
    (h1 : p.1.isLower = true) (h2 : p.2.isLower = true) :
    verdictOf (verdictChar l k p) = some (closedVerdict l k p) := by
  unfold verdictChar closedVerdict
  by_cases h : p.1 = p.2
  · rw [if_pos h, if_pos h]
    exact verdictOf_of_isUpper _ (isUpper_toUpper _ h2)
  · rw [if_neg h, if_neg h]
    by_cases hlt : usedBefore l p.1 k < remaining l p.1
    · rw [if_pos hlt, if_pos hlt, toLower_of_isLower _ h1]
      exact verdictOf_of_isLower _ h1
    · rw [if_neg hlt, if_neg hlt]
      exact verdictOf_BLANK

/-- The verdict at position `i` of the result of `check_guess`, on words. -/
theorem check_guess_verdict (g a : List Char) (hgw : isWord g) (haw : isWord a)
    (i : Nat) (x y : Char) (hx : g[i]? = some x) (hy : a[i]? = some y) :
    ((verdictChars (g.zip a))[i]?).bind verdictOf = some (closedVerdict (g.zip a) i (x, y)) := by
  rw [verdictChars_getElem?, zip_getElem?_some g a i x y hx hy, Option.map_some',
    Option.some_bind]
  exact verdictOf_verdictChar _ _ _ (hgw x (List.mem_iff_getElem?.mpr ⟨i, hx⟩))
    (haw y (List.mem_iff_getElem?.mpr ⟨i, hy⟩))

/-- Two lists that agree position by position on two predicates have the same
counts. -/
theorem countP_eq_of_pointwise {α β : Type} (P : α → Bool) (Q : β → Bool) :
    ∀ (r : List α) (l : List β), r.length = l.length →
      (∀ (k : Nat) (c : α) (p : β), r[k]? = some c → l[k]? = some p → P c = Q p) →
      r.countP P = l.countP Q := by
  intro r
  induction r with
  | nil =>
    intro l hl _
    cases l with
    | nil => rfl
    | cons _ _ => simp at hl
  | cons c r ih =>
    intro l hl h
    cases l with
    | nil => simp at hl
    | cons p l =>
      have h0 : P c = Q p := h 0 c p (by simp) (by simp)
      have hrest : r.countP P = l.countP Q :=
        ih l (by simpa using hl)
          (fun k c2 p2 hc hp => h (k + 1) c2 p2 (by simpa using hc) (by simpa using hp))
      rw [List.countP_cons, List.countP_cons, hrest, h0]

/-! ## Claims about `check_guess` -/

/-- C1: for a guess `g` and an answer `a` that are lowercase words of the same
length `n`, `check_guess g a n` returns a string of exactly `n` characters, each
of which is a verdict; the number of Correct verdicts is the number of positions
where `g` and `a` agree, and position `i` is Correct exactly when
`g[i] = a[i]`. -/
theorem check_guess_correct_iff_exact_match (g a : List Char) (n : Nat)
    (hg : g.length = n) (ha : a.length = n) (hgw : isWord g) (haw : isWord a) :
    ∃ r, check_guess g a n = some r ∧ r.length = n ∧
      r.countP (fun c => verdictOf c == some Verdict.Correct) =
        (g.zip a).countP (fun p => p.1 == p.2) ∧
      ∀ i, i < n → ((r[i]?).bind verdictOf).isSome = true ∧
        (((r[i]?).bind verdictOf = some Verdict.Correct) ↔ g[i]? = a[i]?) := by
  have hzl : (g.zip a).length = n := by simp [hg, ha]
  refine ⟨verdictChars (g.zip a), check_guess_eq g a n hg ha hgw haw,
    by rw [verdictChars_length, hzl], ?_, ?_⟩
  · apply countP_eq_of_pointwise _ _ _ _ (verdictChars_length _)
    intro k c p hc hp
    rw [verdictChars_getElem?, hp, Option.map_some'] at hc
    have hmem : p ∈ g.zip a := List.mem_iff_getElem?.mpr ⟨k, hp⟩
    have hv := verdictOf_verdictChar (g.zip a) k p (hgw _ (List.of_mem_zip hmem).1)
      (haw _ (List.of_mem_zip hmem).2)
    rw [← Option.some.inj hc, hv]
    unfold closedVerdict
    by_cases h : p.1 = p.2
    · simp [h]
    · by_cases hlt : usedBefore (g.zip a) p.1 k < remaining (g.zip a) p.1 <;> simp [h, hlt]
  · intro i hi
    have hx : g[i]? = some (g[i]) := List.getElem?_eq_getElem (by omega)
    have hy : a[i]? = some (a[i]) := List.getElem?_eq_getElem (by omega)
    rw [check_guess_verdict g a hgw haw i _ _ hx hy, hx, hy]
    refine ⟨rfl, ?_⟩
    unfold closedVerdict
    by_cases h : g[i] = a[i]
    · simp [h]
    · by_cases hlt : usedBefore (g.zip a) g[i] i < remaining (g.zip a) g[i] <;> simp [h, hlt]

/-- Example 1 of the specification, an instance of C1: guess "crane" against
answer "crate" gives "CRA-E", that is Correct, Correct, Correct, Absent,
Correct. -/
theorem check_guess_correct_iff_exact_match_witness :
    check_guess crane crate 5 = some ['C', 'R', 'A', '-', 'E'] ∧
    ['C', 'R', 'A', '-', 'E'].map verdictOf =
      [some Verdict.Correct, some Verdict.Correct, some Verdict.Correct,
        some Verdict.Absent, some Verdict.Correct] ∧
    ∃ r, check_guess crane crate 5 = some r ∧ r.length = 5 ∧
      r.countP (fun c => verdictOf c == some Verdict.Correct) =
        (crane.zip crate).countP (fun p => p.1 == p.2) ∧
      ∀ i, i < 5 → ((r[i]?).bind verdictOf).isSome = true ∧
        (((r[i]?).bind verdictOf = some Verdict.Correct) ↔ crane[i]? = crate[i]?) :=
  ⟨by decide, by decide,
    check_guess_correct_iff_exact_match crane crate 5 (by decide) (by decide) (by decide)
      (by decide)⟩

/-- C3: for a guess `g` and an answer `a` that are lowercase words of the same
length `n` and a position `i` with `g[i] ≠ a[i]`, the verdict at `i` is Present
if and only if the number of earlier positions `k < i` with `g[k] = g[i]` and
`g[k] ≠ a[k]` is smaller than the number of positions `j` with `a[j] = g[i]`
and `g[j] ≠ a[j]`; otherwise it is Absent. -/
theorem check_guess_present_iff (g a : List Char) (n : Nat)
    (hg : g.length = n) (ha : a.length = n) (hgw : isWord g) (haw : isWord a)
    (i : Nat) (x y : Char) (hx : g[i]? = some x) (hy : a[i]? = some y) (hxy : x ≠ y) :
    ∃ r, check_guess g a n = some r ∧
      (((r[i]?).bind verdictOf = some Verdict.Present) ↔
        usedBefore (g.zip a) x i < remaining (g.zip a) x) ∧
      (¬ usedBefore (g.zip a) x i < remaining (g.zip a) x →
        (r[i]?).bind verdictOf = some Verdict.Absent) := by
  refine ⟨verdictChars (g.zip a), check_guess_eq g a n hg ha hgw haw, ?_, ?_⟩
  · rw [check_guess_verdict g a hgw haw i x y hx hy]
    unfold closedVerdict
    by_cases hlt : usedBefore (g.zip a) x i < remaining (g.zip a) x <;> simp [hxy, hlt]
  · intro hlt
    rw [check_guess_verdict g a hgw haw i x y hx hy]
    unfold closedVerdict
    simp [hxy, hlt]

/-- Example 2 of the specification, an instance of C3: guess "allee" against
answer "label" gives "allE-"; the `e` at position 3 is Correct and the `e` at
position 4, an excess repeat, is Absent. -/
theorem check_guess_present_iff_witness :
    check_guess allee label 5 = some ['a', 'l', 'l', 'E', '-'] ∧
    ['a', 'l', 'l', 'E', '-'].map verdictOf =
      [some Verdict.Present, some Verdict.Present, some Verdict.Present,
        some Verdict.Correct, some Verdict.Absent] ∧
    ¬ usedBefore (allee.zip label) 'e' 4 < remaining (allee.zip label) 'e' ∧
    ∃ r, check_guess allee label 5 = some r ∧
      (((r[4]?).bind verdictOf = some Verdict.Present) ↔
        usedBefore (allee.zip label) 'e' 4 < remaining (allee.zip label) 'e') ∧
      (¬ usedBefore (allee.zip label) 'e' 4 < remaining (allee.zip label) 'e' →
        (r[4]?).bind verdictOf = some Verdict.Absent) :=
  ⟨by decide, by decide, by decide,
    check_guess_present_iff allee label 5 (by decide) (by decide) (by decide) (by decide)
      4 'e' 'l' (by decide) (by decide) (by decide)⟩

/-! ## The letter-frequency law -/

theorem exactBefore_succ (l : List (Char × Char)) (c : Char) (i : Nat) (p : Char × Char)
    (hp : l[i]? = some p) :
    exactBefore l c (i + 1) = exactBefore l c i + if p.1 = p.2 ∧ p.1 = c then 1 else 0 := by
  unfold exactBefore
  rw [List.take_succ, hp, List.countP_append]
  congr 1
  by_cases h1 : p.1 = c <;> by_cases h2 : p.1 = p.2 <;> simp [List.countP_cons, h1, h2]

theorem isCredited_verdictChar (l : List (Char × Char)) (k : Nat) (p : Char × Char)
    (h1 : p.1.isLower = true) (h2 : p.2.isLower = true) :
    isCredited (verdictChar l k p) =
      decide (p.1 = p.2 ∨ usedBefore l p.1 k < remaining l p.1) := by
  unfold isCredited
  rw [verdictOf_verdictChar l k p h1 h2]
  unfold closedVerdict
  by_cases h : p.1 = p.2
  · simp [h]
  · by_cases hlt : usedBefore l p.1 k < remaining l p.1 <;> simp [h, hlt]

/-- Among the first `i` positions, the credited occurrences of `c` are the exact
matches of `c` and the first `remaining` non-matching occurrences of `c`. -/
theorem credited_prefix (g a : List Char) (n : Nat) (hg : g.length = n) (ha : a.length = n)
    (hgw : isWord g) (haw : isWord a) (c : Char) (i : Nat) (hi : i ≤ n) :
    ((g.zip (verdictChars (g.zip a))).take i).countP (fun p => p.1 == c && isCredited p.2) =
      exactBefore (g.zip a) c i +
        min (usedBefore (g.zip a) c i) (remaining (g.zip a) c) := by
  induction i with
  | zero => simp [exactBefore, usedBefore]
  | succ i ih =>
    have hig : i < g.length := by omega
    have hia : i < a.length := by omega
    have hx : g[i]? = some g[i] := List.getElem?_eq_getElem hig
    have hy : a[i]? = some a[i] := List.getElem?_eq_getElem hia
    have hz : (g.zip a)[i]? = some (g[i], a[i]) := zip_getElem?_some g a i _ _ hx hy
    have hr : (verdictChars (g.zip a))[i]? = some (verdictChar (g.zip a) i (g[i], a[i])) := by
      rw [verdictChars_getElem?, hz]; rfl
    have hzr : (g.zip (verdictChars (g.zip a)))[i]? =
        some (g[i], verdictChar (g.zip a) i (g[i], a[i])) :=
      zip_getElem?_some g _ i _ _ hx hr
    have hcred := isCredited_verdictChar (g.zip a) i (g[i], a[i])
      (hgw _ (List.getElem_mem hig)) (haw _ (List.getElem_mem hia))
    rw [List.take_succ, hzr, List.countP_append, ih (by omega),
      exactBefore_succ _ c i _ hz, usedBefore_succ _ c i _ hz]
    simp only [Option.toList_some, List.countP_cons, List.countP_nil, hcred, zero_add]
    by_cases h1 : g[i] = c
    · subst h1
      by_cases h2 : g[i] = a[i]
      · simp [h2]; omega
      · by_cases hlt : usedBefore (g.zip a) g[i] i < remaining (g.zip a) g[i]
        · simp [h2, hlt]; omega
        · simp [h2, hlt]; omega
    · simp [h1]

theorem count_snd_split (c : Char) (l : List (Char × Char)) :
    l.countP (fun p => p.2 == c) =
      l.countP (fun p => p.1 == c && p.1 == p.2) + remaining l c := by
  unfold remaining
  induction l with
  | nil => rfl
  | cons p l ih =>
    rw [List.countP_cons, List.countP_cons, List.countP_cons, ih]
    obtain ⟨x, y⟩ := p
    by_cases h2 : x = y
    · subst h2
      by_cases h1 : x = c
      · simp [h1]; omega
      · simp [h1]
    · by_cases h1 : y = c
      · subst h1
        simp [h2]; omega
      · by_cases h3 : x = c
        · subst h3
          simp [h1, h2]
        · simp [h1, h2, h3]

theorem count_fst_split (c : Char) (l : List (Char × Char)) :
    l.countP (fun p => p.1 == c) =
      l.countP (fun p => p.1 == c && p.1 == p.2) +
        l.countP (fun p => p.1 == c && p.1 != p.2) := by
  induction l with
  | nil => rfl
  | cons p l ih =>
    rw [List.countP_cons, List.countP_cons, List.countP_cons, ih]
    obtain ⟨x, y⟩ := p
    by_cases h2 : x = y
    · subst h2
      by_cases h1 : x = c
      · simp [h1]; omega
      · simp [h1]
    · by_cases h3 : x = c
      · subst h3
        simp [h2]; omega
      · simp [h2, h3]

theorem count_answer (g a : List Char) (n : Nat) (hg : g.length = n) (ha : a.length = n)
    (c : Char) :
    a.count c = exactBefore (g.zip a) c n + remaining (g.zip a) c := by
  have hzl : (g.zip a).length = n := by simp [hg, ha]
  have hsnd : (g.zip a).map Prod.snd = a := List.map_snd_zip g a (by omega)
  have htake : (g.zip a).take n = g.zip a := List.take_of_length_le (by omega)
  unfold exactBefore
  rw [htake, ← count_snd_split]
  conv_lhs => rw [← hsnd]
  rw [List.count_eq_countP, List.countP_map]
  rfl

theorem count_guess (g a : List Char) (n : Nat) (hg : g.length = n) (ha : a.length = n)
    (c : Char) :
    g.count c = exactBefore (g.zip a) c n + usedBefore (g.zip a) c n := by
  have hzl : (g.zip a).length = n := by simp [hg, ha]
  have hfst : (g.zip a).map Prod.fst = g := List.map_fst_zip g a (by omega)
  have htake : (g.zip a).take n = g.zip a := List.take_of_length_le (by omega)
  unfold exactBefore usedBefore
  rw [htake, ← count_fst_split]
  conv_lhs => rw [← hfst]
  rw [List.count_eq_countP, List.countP_map]
  rfl

/-- The credited occurrences of `c` in the result of `check_guess`, on words. -/
theorem creditedCount_eq (g a : List Char) (n : Nat) (hg : g.length = n) (ha : a.length = n)
    (hgw : isWord g) (haw : isWord a) (c : Char) :
    creditedCount g (verdictChars (g.zip a)) c =
      exactBefore (g.zip a) c n +
        min (usedBefore (g.zip a) c n) (remaining (g.zip a) c) := by
  have hzl : (g.zip a).length = n := by simp [hg, ha]
  have hlen : (g.zip (verdictChars (g.zip a))).length = n := by
    simp [verdictChars_length, hzl, hg]
  have htake : (g.zip (verdictChars (g.zip a))).take n = g.zip (verdictChars (g.zip a)) :=
    List.take_of_length_le (by omega)
  unfold creditedCount
  rw [← credited_prefix g a n hg ha hgw haw c n (le_refl _), htake]

/-- C2, the letter-frequency law: for a guess `g` and an answer `a` that are
lowercase words of the same length `n` and every letter `c`, the number of
positions `i` with `g[i] = c` whose verdict is Correct or Present is at most the
number of occurrences of `c` in `a`. -/
theorem check_guess_letter_frequency (g a : List Char) (n : Nat)
    (hg : g.length = n) (ha : a.length = n) (hgw : isWord g) (haw : isWord a) (c : Char) :
    ∃ r, check_guess g a n = some r ∧ creditedCount g r c ≤ a.count c := by
  refine ⟨verdictChars (g.zip a), check_guess_eq g a n hg ha hgw haw, ?_⟩
  rw [creditedCount_eq g a n hg ha hgw haw c, count_answer g a n hg ha c]
  omega

/-- An instance of C2: in "allee" against "label" the letter `e`, which occurs
twice in the guess and once in the answer, is credited once. -/
theorem check_guess_letter_frequency_witness :
    creditedCount allee ['a', 'l', 'l', 'E', '-'] 'e' = 1 ∧ label.count 'e' = 1 ∧
    ∃ r, check_guess allee label 5 = some r ∧ creditedCount allee r 'e' ≤ label.count 'e' :=
  ⟨by decide, by decide,
    check_guess_letter_frequency allee label 5 (by decide) (by decide) (by decide)
      (by decide) 'e'⟩

/-! ## The frequency-counting evaluator -/

theorem freq_tally_eq (l : List (Char × Char)) (c : Char) : freq_tally l c = remaining l c := by
  unfold remaining
  induction l with
  | nil => rfl
  | cons p l ih =>
    rw [freq_tally, ih, List.countP_cons]
    obtain ⟨x, y⟩ := p
    by_cases h1 : y = c
    · subst h1
      by_cases h2 : x = y
      · simp [h2]
      · simp [h2]; omega
    · simp [h1]

theorem usedBefore_cons (p : Char × Char) (l : List (Char × Char)) (c : Char) (k : Nat) :
    usedBefore (p :: l) c (k + 1) =
      usedBefore l c k + if p.1 ≠ p.2 ∧ p.1 = c then 1 else 0 := by
  unfold usedBefore
  rw [List.take_succ_cons, List.countP_cons]
  congr 1
  obtain ⟨x, y⟩ := p
  by_cases h1 : x = c
  · subst h1
    by_cases h2 : x = y <;> simp [h2]
  · simp [h1]

/-- Position by position, the scan with tally `tally` gives the closed form
with `tally` in the place of `remaining`. -/
theorem freq_scan_getElem? (l : List (Char × Char)) :
    ∀ (tally : Char → Nat) (k : Nat), (freq_scan l tally)[k]? =
      (l[k]?).map (fun p => if p.1 = p.2 then Verdict.Correct
        else if usedBefore l p.1 k < tally p.1 then Verdict.Present else Verdict.Absent) := by
  induction l with
  | nil => intro tally k; simp [freq_scan]
  | cons p l ih =>
    intro tally k
    cases k with
    | zero =>
      unfold freq_scan
      by_cases h : p.1 = p.2
      · simp [h]
      · by_cases ht : 0 < tally p.1 <;> simp [h, ht, usedBefore_zero]
    | succ k =>
      have hrest : ∀ (t2 : Char → Nat),
          (∀ q : Char × Char, q.1 ≠ q.2 →
            (usedBefore l q.1 k < t2 q.1 ↔ usedBefore (p :: l) q.1 (k + 1) < tally q.1)) →
          (freq_scan l t2)[k]? = ((p :: l)[k + 1]?).map (fun q =>
            if q.1 = q.2 then Verdict.Correct
            else if usedBefore (p :: l) q.1 (k + 1) < tally q.1 then Verdict.Present
            else Verdict.Absent) := by
        intro t2 ht2
        rw [ih t2 k, List.getElem?_cons_succ]
        cases l[k]? with
        | none => rfl
        | some q =>
          simp only [Option.map_some', Option.some.injEq]
          by_cases hq : q.1 = q.2
          · simp [hq]
          · simp only [hq, if_false, ht2 q hq]
      unfold freq_scan
      by_cases h : p.1 = p.2
      · rw [if_pos h]
        refine Eq.trans List.getElem?_cons_succ (hrest _ ?_)
        intro q _
        rw [usedBefore_cons]
        simp [h]
      · rw [if_neg h]
        by_cases ht : 0 < tally p.1
        · rw [if_pos ht]
          refine Eq.trans List.getElem?_cons_succ (hrest _ ?_)
          intro q _
          rw [usedBefore_cons]
          by_cases hqp : q.1 = p.1
          · rw [hqp]
            simp only [h, ne_eq, not_false_eq_true, and_self, if_true]
            omega
          · have hpq : ¬ p.1 = q.1 := fun hc => hqp hc.symm
            simp [hqp, hpq]
        · rw [if_neg ht]
          refine Eq.trans List.getElem?_cons_succ (hrest _ ?_)
          intro q _
          rw [usedBefore_cons]
          by_cases hqp : q.1 = p.1
          · rw [hqp]
            simp only [h, ne_eq, not_false_eq_true, and_self, if_true]
            omega
          · have hpq : ¬ p.1 = q.1 := fun hc => hqp hc.symm
            simp [hpq]

theorem freq_evaluate_getElem? (g a : List Char) (k : Nat) :
    (freq_evaluate g a)[k]? = ((g.zip a)[k]?).map (closedVerdict (g.zip a) k) := by
  unfold freq_evaluate
  rw [freq_scan_getElem?]
  cases (g.zip a)[k]? with
  | none => rfl
  | some p => simp [closedVerdict, freq_tally_eq]

/-- C4: for a guess `g` and an answer `a` that are lowercase words of the same
length `n`, the verdict sequence of `check_guess g a n` (the scratch-copy and
consume evaluator of the source) is the verdict sequence of the
frequency-counting evaluator of the specification. -/
theorem check_guess_eq_freq_evaluate (g a : List Char) (n : Nat)
    (hg : g.length = n) (ha : a.length = n) (hgw : isWord g) (haw : isWord a) :
    ∃ r, check_guess g a n = some r ∧ r.map verdictOf = (freq_evaluate g a).map some := by
  refine ⟨verdictChars (g.zip a), check_guess_eq g a n hg ha hgw haw, ?_⟩
  apply List.ext_getElem?
  intro k
  rw [List.getElem?_map, List.getElem?_map, verdictChars_getElem?, freq_evaluate_getElem?]
  cases hp : (g.zip a)[k]? with
  | none => rfl
  | some p =>
    have hmem : p ∈ g.zip a := List.mem_iff_getElem?.mpr ⟨k, hp⟩
    simp only [Option.map_some']
    rw [verdictOf_verdictChar _ _ _ (hgw _ (List.of_mem_zip hmem).1)
      (haw _ (List.of_mem_zip hmem).2)]

/-- An instance of C4: on "allee" against "label" both evaluators give Present,
Present, Present, Correct, Absent. -/
theorem check_guess_eq_freq_evaluate_witness :
    freq_evaluate allee label =
      [Verdict.Present, Verdict.Present, Verdict.Present, Verdict.Correct, Verdict.Absent] ∧
    ∃ r, check_guess allee label 5 = some r ∧
      r.map verdictOf = (freq_evaluate allee label).map some :=
  ⟨by decide,
    check_guess_eq_freq_evaluate allee label 5 (by decide) (by decide) (by decide)
      (by decide)⟩

/-! ## `validate_input` -/

theorem alpha_loop_fst (t : List Char) : (alpha_loop t).1 = t.all Char.isAlpha := by
  induction t with
  | nil => rfl
  | cons c t ih =>
    unfold alpha_loop
    by_cases h : c.isAlpha = false
    · simp [h]
    · simp only [h, if_false]
      rw [ih]
      simp only [Bool.not_eq_false] at h
      simp [h]

theorem alpha_loop_snd (t : List Char) (h : t.all Char.isAlpha = true) :
    (alpha_loop t).2 = t.map Char.toLower := by
  induction t with
  | nil => rfl
  | cons c t ih =>
    simp only [List.all_cons, Bool.and_eq_true] at h
    unfold alpha_loop
    simp only [h.1, Bool.true_eq_false, if_false, List.map_cons]
    rw [ih h.2]

theorem dict_loop_iff (g : List Char) (ws : List (List Char)) :
    dict_loop g ws = true ↔ g ∈ ws := by
  induction ws with
  | nil => simp [dict_loop]
  | cons w ws ih =>
    unfold dict_loop
    by_cases h : g = w
    · simp [h]
    · simp [h, ih]

theorem takeWhile_eq_stripped (l : List Char) (h : NEWLINE ∉ l.dropLast) :
    l.takeWhile (fun c => c != NEWLINE) = stripped l := by
  induction l with
  | nil => rfl
  | cons a l ih =>
    cases l with
    | nil =>
      by_cases ha : a = NEWLINE
      · subst ha; rfl
      · simp [stripped, ha]
    | cons b l =>
      have ha : a ≠ NEWLINE := by
        intro hc
        apply h
        rw [hc]
        simp [List.dropLast]
      have hrest : NEWLINE ∉ (b :: l).dropLast := by
        intro hc
        apply h
        simp only [List.dropLast_cons₂, List.mem_cons]
        exact Or.inr hc
      have := ih hrest
      rw [List.takeWhile_cons_of_pos (by simpa using ha), this]
      unfold stripped
      simp only [List.getLast?_cons_cons, List.dropLast_cons₂]
      split <;> rfl

theorem stripped_length_le (l : List Char) : (stripped l).length ≤ l.length := by
  unfold stripped
  split
  · simp
  · exact le_refl _

theorem stripped_length_lt_two (l : List Char) (h : l.length ≤ 1) (n : Nat) (hn : 2 ≤ n) :
    (stripped l).length ≠ n := by
  have := stripped_length_le l
  omega

theorem strtok_line (l : List Char) (hl : isLine l) (h : l.length > 1) :
    strtok l = some ([], stripped l) := by
  obtain ⟨_, hnl⟩ := hl
  cases l with
  | nil => simp at h
  | cons a l =>
    cases l with
    | nil => simp at h
    | cons b l =>
      have ha : a ≠ NEWLINE := by
        intro hc
        apply hnl
        rw [hc]
        simp [List.dropLast]
      have ha2 : (a == NEWLINE) = false := by simpa using ha
      unfold strtok
      simp only [List.takeWhile_cons, List.dropWhile_cons, ha2]
      simp only [Bool.false_eq_true, if_false, reduceCtorEq]
      rw [← takeWhile_eq_stripped _ hnl]

/-- What `validate_input` does on a line read by `fgets`, when the required
length is at least 2. -/
theorem validate_input_line (raw : List Char) (n : Nat) (words : List (List Char))
    (hl : isLine raw) (hn : 2 ≤ n) :
    validate_input raw n words = some (
      if (stripped raw).length ≠ n then
        { accepted := false, buffer := if raw.length > 1 then stripped raw else raw,
          errors := [ValidationError.WrongLength] }
      else if (stripped raw).all Char.isAlpha = false then
        { accepted := false, buffer := (alpha_loop (stripped raw)).2,
          errors := [ValidationError.NonAlphabetic] }
      else if (stripped raw).map Char.toLower ∈ words then
        { accepted := true, buffer := (stripped raw).map Char.toLower, errors := [] }
      else
        { accepted := false, buffer := (stripped raw).map Char.toLower,
          errors := [ValidationError.NotInDictionary] }) := by
  unfold validate_input
  by_cases h : raw.length > 1
  · simp only [h, if_true, strtok_line raw hl h, Option.bind_eq_bind, Option.some_bind,
      List.nil_append, Option.pure_def]
    by_cases hlen : (stripped raw).length = n
    · simp only [hlen, ne_eq, not_true_eq_false, if_false, alpha_loop_fst]
      by_cases halpha : (stripped raw).all Char.isAlpha = true
      · simp only [halpha, Bool.true_eq_false, if_false, alpha_loop_snd _ halpha]
        by_cases hd : (stripped raw).map Char.toLower ∈ words
        · simp [hd, (dict_loop_iff _ _).mpr hd]
        · have : dict_loop ((stripped raw).map Char.toLower) words = false := by
            rw [Bool.eq_false_iff, ne_eq, dict_loop_iff]; exact hd
          simp [hd, this]
      · simp only [Bool.not_eq_true] at halpha
        simp [halpha]
    · simp [hlen]
  · have h1 : raw.length ≤ 1 := by omega
    have h2 : raw.length ≠ n := by omega
    have h3 := stripped_length_lt_two raw h1 n hn
    simp [h, h2, h3]

/-- C5: for every line as `fgets` delivers it, every required length in 3..9
and every dictionary, `validate_input` returns, and it returns true if and only
if the line without its trailing line terminator has exactly the required
number of characters, all of them letters, and its lowercase form is a
dictionary entry; the caller then finds that lowercase form in its buffer. -/
theorem validate_input_accepts_iff (raw : List Char) (n : Nat) (words : List (List Char))
    (hl : isLine raw) (hn : 3 ≤ n ∧ n ≤ 9) :
    ∃ v, validate_input raw n words = some v ∧
      (v.accepted = true ↔
        ((stripped raw).length = n ∧ (∀ c ∈ stripped raw, c.isAlpha = true) ∧
          (stripped raw).map Char.toLower ∈ words)) ∧
      (v.accepted = true → v.buffer = (stripped raw).map Char.toLower) := by
  refine ⟨_, validate_input_line raw n words hl (by omega), ?_, ?_⟩
  · by_cases hlen : (stripped raw).length = n
    · by_cases halpha : (stripped raw).all Char.isAlpha = true
      · have hall : ∀ c ∈ stripped raw, c.isAlpha = true := by
          simpa [List.all_eq_true] using halpha
        by_cases hd : (stripped raw).map Char.toLower ∈ words
        · simp only [hlen, halpha, hd, ne_eq, not_true_eq_false, if_false, if_true,
            Bool.true_eq_false, true_and, and_true, true_iff]
          exact hall
        · simp only [hlen, halpha, hd, ne_eq, not_true_eq_false, if_false,
            Bool.true_eq_false, and_false, Bool.false_eq_true]
      · have hnall : ¬ ∀ c ∈ stripped raw, c.isAlpha = true := by
          intro hc
          exact halpha (by simpa [List.all_eq_true] using hc)
        simp only [Bool.not_eq_true] at halpha
        simp only [hlen, halpha, ne_eq, not_true_eq_false, if_false, if_true, hnall,
          false_and, and_false, Bool.false_eq_true]
    · simp [hlen]
  · by_cases hlen : (stripped raw).length = n
    · by_cases halpha : (stripped raw).all Char.isAlpha = true
      · by_cases hd : (stripped raw).map Char.toLower ∈ words
        · simp [hlen, halpha, hd]
        · simp [hlen, halpha, hd]
      · simp only [Bool.not_eq_true] at halpha
        simp [hlen, halpha]
    · simp [hlen]

/-- An instance of C5: the mixed-case line "CrAnE" is accepted for length 5 by
a dictionary that holds "crane". -/
theorem validate_input_accepts_iff_witness :
    validate_input line_CrAnE 5 smallDict =
      some { accepted := true, buffer := crane, errors := [] } ∧
    isLine line_CrAnE ∧
    ∃ v, validate_input line_CrAnE 5 smallDict = some v ∧
      (v.accepted = true ↔
        ((stripped line_CrAnE).length = 5 ∧ (∀ c ∈ stripped line_CrAnE, c.isAlpha = true) ∧
          (stripped line_CrAnE).map Char.toLower ∈ smallDict)) ∧
      (v.accepted = true → v.buffer = (stripped line_CrAnE).map Char.toLower) :=
  ⟨by decide, by decide,
    validate_input_accepts_iff line_CrAnE 5 smallDict (by decide) (by decide)⟩

/-- C6: for every line as `fgets` delivers it, every required length that the
program uses (`validate_args` admits 3..9 and the default is 5; the proof needs
only that the length is at least 2) and every dictionary, `validate_input`
reports exactly the error of the specification: WrongLength if the stripped
line has not the required length, otherwise NonAlphabetic if some character is
not a letter, otherwise NotInDictionary if the lowercase form is not in the
dictionary; a failing validation reports exactly one error and a successful one
none. -/
theorem validate_input_error_order (raw : List Char) (n : Nat) (words : List (List Char))
    (hl : isLine raw) (hn : 2 ≤ n) :
    ∃ v, validate_input raw n words = some v ∧
      v.errors = reportedErrors raw n words ∧
      (v.accepted = false → v.errors.length = 1) ∧
      (v.accepted = true → v.errors = []) := by
  refine ⟨_, validate_input_line raw n words hl hn, ?_, ?_, ?_⟩
  · unfold reportedErrors
    by_cases hlen : (stripped raw).length = n
    · by_cases halpha : (stripped raw).all Char.isAlpha = true
      · by_cases hd : (stripped raw).map Char.toLower ∈ words
        · simp [hlen, halpha, hd]
        · simp [hlen, halpha, hd]
      · simp only [Bool.not_eq_true] at halpha
        simp [hlen, halpha]
    · simp [hlen]
  · by_cases hlen : (stripped raw).length = n
    · by_cases halpha : (stripped raw).all Char.isAlpha = true
      · by_cases hd : (stripped raw).map Char.toLower ∈ words
        · simp [hlen, halpha, hd]
        · simp [hlen, halpha, hd]
      · simp only [Bool.not_eq_true] at halpha
        simp [hlen, halpha]
    · simp [hlen]
  · by_cases hlen : (stripped raw).length = n
    · by_cases halpha : (stripped raw).all Char.isAlpha = true
      · by_cases hd : (stripped raw).map Char.toLower ∈ words
        · simp [hlen, halpha, hd]
        · simp [hlen, halpha, hd]
      · simp only [Bool.not_eq_true] at halpha
        simp [hlen, halpha]
    · simp [hlen]

/-- Examples 3 and 4 of the specification, instances of C6: "12345" with
required length 5 fails with NonAlphabetic, and "cat" with required length 5
fails with WrongLength. -/
theorem validate_input_error_order_witness :
    (validate_input line_12345 5 smallDict).map Validation.errors =
      some [ValidationError.NonAlphabetic] ∧
    (validate_input line_cat 5 smallDict).map Validation.errors =
      some [ValidationError.WrongLength] ∧
    isLine line_12345 ∧
    ∃ v, validate_input line_12345 5 smallDict = some v ∧
      v.errors = reportedErrors line_12345 5 smallDict ∧
      (v.accepted = false → v.errors.length = 1) ∧
      (v.accepted = true → v.errors = []) :=
  ⟨by decide, by decide, by decide,
    validate_input_error_order line_12345 5 smallDict (by decide) (by decide)⟩

/-! ## `play_game` -/

theorem isLower_toLower_of_isAlpha (c : Char) (h : c.isAlpha = true) :
    c.toLower.isLower = true := by
  unfold Char.isAlpha at h
  rw [Bool.or_eq_true] at h
  rcases h with h | h
  · rw [isUpper_iff] at h
    rw [isLower_iff]
    unfold Char.toLower
    simp only [ge_iff_le, h, and_self, if_true]
    rw [toNat_ofNat_small _ (by omega)]
    omega
  · rw [toLower_of_isLower c h]; exact h

theorem alpha_loop_length (t : List Char) : (alpha_loop t).2.length = t.length := by
  induction t with
  | nil => rfl
  | cons c t ih =>
    unfold alpha_loop
    by_cases h : c.isAlpha = false
    · simp [h]
    · simp [h, ih]

theorem isWord_map_toLower (t : List Char) (h : t.all Char.isAlpha = true) :
    isWord (t.map Char.toLower) := by
  intro c hc
  rw [List.mem_map] at hc
  obtain ⟨d, hd, rfl⟩ := hc
  exact isLower_toLower_of_isAlpha d (List.all_eq_true.mp h d hd)

/-- On a line read by `fgets`, `validate_input` returns, and what it accepts is
left in the buffer as a word of the required length. -/
theorem validate_input_of_line (raw : List Char) (n : Nat) (words : List (List Char))
    (hl : isLine raw) :
    ∃ v, validate_input raw n words = some v ∧
      (v.accepted = true → v.buffer.length = n ∧ isWord v.buffer) := by
  have key : ∀ token : List Char,
      ∃ v, (if token.length ≠ n then
          (pure { accepted := false, buffer := [] ++ token,
                  errors := [ValidationError.WrongLength] } : Option Validation)
        else
          let checked := alpha_loop token
          if checked.1 = false then
            pure { accepted := false, buffer := [] ++ checked.2,
                   errors := [ValidationError.NonAlphabetic] }
          else if dict_loop checked.2 words then
            pure { accepted := true, buffer := [] ++ checked.2, errors := [] }
          else
            pure { accepted := false, buffer := [] ++ checked.2,
                   errors := [ValidationError.NotInDictionary] }) = some v ∧
        (v.accepted = true → v.buffer.length = n ∧ isWord v.buffer) := by
    intro token
    by_cases hlen : token.length = n
    · by_cases halpha : (alpha_loop token).1 = true
      · have hall : token.all Char.isAlpha = true := by rw [← alpha_loop_fst]; exact halpha
        by_cases hd : dict_loop (alpha_loop token).2 words = true
        · refine ⟨Validation.mk true (alpha_loop token).2 [], ?_, ?_⟩
          · simp [hlen, halpha, hd]
          · intro _
            refine ⟨by simp [alpha_loop_length, hlen], ?_⟩
            simp only [alpha_loop_snd _ hall]
            exact isWord_map_toLower _ hall
        · refine ⟨Validation.mk false (alpha_loop token).2
            [ValidationError.NotInDictionary], ?_, ?_⟩
          · simp [hlen, halpha, hd]
          · intro h; simp at h
      · refine ⟨Validation.mk false (alpha_loop token).2
          [ValidationError.NonAlphabetic], ?_, ?_⟩
        · simp only [Bool.not_eq_true] at halpha
          simp [hlen, halpha]
        · intro h; simp at h
    · refine ⟨Validation.mk false token [ValidationError.WrongLength], ?_, ?_⟩
      · simp [hlen]
      · intro h; simp at h
  unfold validate_input
  by_cases h : raw.length > 1
  · simp only [h, if_true, strtok_line raw hl h, Option.bind_eq_bind, Option.some_bind]
    exact key (stripped raw)
  · simp only [h, if_false, Option.bind_eq_bind, Option.some_bind]
    exact key raw

theorem check_guess_isSome (g a : List Char) (n : Nat) (hg : g.length = n)
    (ha : a.length = n) (hgb : ∀ c ∈ g, c ≠ BLANK) : ∃ r, check_guess g a n = some r := by
  obtain ⟨st, hst, h1, _⟩ := check_guess_passes_spec g a n hg ha hgb
  refine ⟨cstr (st.1.set n NULL_BYTE), ?_⟩
  unfold check_guess
  simp [hst, store, h1]

theorem guessOf_of_accepted (n : Nat) (words : List (List Char)) (line : List Char)
    (v : Validation) (hv : validate_input line n words = some v) (ha : v.accepted = true) :
    guessOf n words line = some v.buffer := by
  simp [guessOf, hv, ha]

theorem guessOf_of_rejected (n : Nat) (words : List (List Char)) (line : List Char)
    (v : Validation) (hv : validate_input line n words = some v) (ha : v.accepted = false) :
    guessOf n words line = none := by
  simp [guessOf, hv, ha]

theorem guessOf_eq_some (n : Nat) (words : List (List Char)) (line w : List Char)
    (h : guessOf n words line = some w) :
    ∃ v, validate_input line n words = some v ∧ v.accepted = true ∧ v.buffer = w := by
  unfold guessOf at h
  cases hv : validate_input line n words with
  | none => rw [hv] at h; simp at h
  | some v =>
    rw [hv] at h
    by_cases ha : v.accepted = true
    · simp only [ha, if_true, Option.some.injEq] at h
      exact ⟨v, rfl, ha, h⟩
    · simp [ha] at h

/-- A rejected line is skipped by the loop. -/
theorem game_loop_rejected (n : Nat) (words : List (List Char)) (answer line : List Char)
    (rest : List (List Char)) (s : Session) (hrej : rejects n words line = true) :
    game_loop n words answer (line :: rest) s = game_loop n words answer rest s := by
  unfold rejects at hrej
  cases hv : validate_input line n words with
  | none => rw [hv] at hrej; simp at hrej
  | some v =>
    rw [hv] at hrej
    have ha : v.accepted = false := by simpa using hrej
    by_cases hpos : s.guessesLeft > 0
    · conv_lhs => unfold game_loop
      simp [hpos, hv, ha]
    · conv_lhs => unfold game_loop
      cases rest with
      | nil => simp [hpos, game_loop]
      | cons l rest => simp [hpos, game_loop]

/-- A validated guess that is the answer ends the loop with `correctGuess`. -/
theorem game_loop_correct (n : Nat) (words : List (List Char)) (answer line : List Char)
    (rest : List (List Char)) (s : Session) (hpos : 0 < s.guessesLeft)
    (hg : guessOf n words line = some answer) :
    game_loop n words answer (line :: rest) s = some { s with correctGuess := true } := by
  obtain ⟨v, hv, ha, hb⟩ := guessOf_eq_some n words line answer hg
  conv_lhs => unfold game_loop
  simp [hpos, hv, ha, hb]

/-- A validated guess that is not the answer costs one attempt and adds one
feedback row. -/
theorem game_loop_incorrect (n : Nat) (words : List (List Char)) (answer line w : List Char)
    (rest : List (List Char)) (s : Session) (hpos : 0 < s.guessesLeft)
    (hg : guessOf n words line = some w) (hw : w ≠ answer) (hl : isLine line)
    (hans : answer.length = n) :
    ∃ check, check_guess w answer n = some check ∧
      game_loop n words answer (line :: rest) s =
        game_loop n words answer rest
          { s with guessesLeft := s.guessesLeft - 1, rows := s.rows ++ [check] } := by
  obtain ⟨v, hv, ha, hb⟩ := guessOf_eq_some n words line w hg
  obtain ⟨v2, hv2, hword⟩ := validate_input_of_line line n words hl
  rw [hv] at hv2
  have hvv : v = v2 := Option.some.inj hv2
  subst hvv
  obtain ⟨hlen, hisw⟩ := hword ha
  rw [hb] at hlen hisw
  obtain ⟨check, hcheck⟩ := check_guess_isSome w answer n hlen hans
    (fun c hc => ne_BLANK_of_isLower c (hisw c hc))
  refine ⟨check, hcheck, ?_⟩
  conv_lhs => unfold game_loop
  simp [hpos, hv, ha, hb, hw, hcheck]

theorem validatedGuesses_cons_some (n : Nat) (words : List (List Char)) (line w : List Char)
    (rest : List (List Char)) (h : guessOf n words line = some w) :
    validatedGuesses n words (line :: rest) = w :: validatedGuesses n words rest := by
  simp [validatedGuesses, List.filterMap_cons, h]

theorem validatedGuesses_cons_none (n : Nat) (words : List (List Char)) (line : List Char)
    (rest : List (List Char)) (h : guessOf n words line = none) :
    validatedGuesses n words (line :: rest) = validatedGuesses n words rest := by
  simp [validatedGuesses, List.filterMap_cons, h]

theorem rejects_of_rejected (n : Nat) (words : List (List Char)) (line : List Char)
    (v : Validation) (hv : validate_input line n words = some v) (ha : v.accepted = false) :
    rejects n words line = true := by
  simp [rejects, hv, ha]

/-- The state in which the loop is left, from the validated guesses of the
input: every line is a line read by `fgets` and the answer has the length of the
session. -/
theorem game_loop_run (n : Nat) (words : List (List Char)) (answer : List Char)
    (hans : answer.length = n) :
    ∀ (stdin : List (List Char)) (s : Session), (∀ l ∈ stdin, isLine l) →
      s.correctGuess = false → s.eofQuit = false →
      ∃ fin, game_loop n words answer stdin s = some fin ∧
        (answer ∈ (validatedGuesses n words stdin).take s.guessesLeft →
          fin.correctGuess = true) ∧
        (answer ∉ (validatedGuesses n words stdin).take s.guessesLeft →
          s.guessesLeft ≤ (validatedGuesses n words stdin).length →
          fin.correctGuess = false ∧ fin.eofQuit = false ∧ fin.guessesLeft = 0) ∧
        (answer ∉ (validatedGuesses n words stdin).take s.guessesLeft →
          (validatedGuesses n words stdin).length < s.guessesLeft →
          fin.correctGuess = false ∧ fin.eofQuit = true ∧
            fin.guessesLeft = s.guessesLeft - (validatedGuesses n words stdin).length) := by
  intro stdin
  induction stdin with
  | nil =>
    intro s _ hc he
    by_cases hpos : s.guessesLeft > 0
    · refine ⟨{ s with eofQuit := true }, by simp [game_loop, hpos], ?_, ?_, ?_⟩
      · intro h; simp [validatedGuesses] at h
      · intro _ h; simp [validatedGuesses] at h; omega
      · intro _ _; simp [validatedGuesses, hc]
    · refine ⟨s, by simp [game_loop, hpos], ?_, ?_, ?_⟩
      · intro h; simp [validatedGuesses] at h
      · intro _ _; exact ⟨hc, he, by omega⟩
      · intro _ h; simp [validatedGuesses] at h; omega
  | cons line rest ih =>
    intro s hlines hc he
    have hline : isLine line := hlines line (List.mem_cons_self _ _)
    have hrestl : ∀ l ∈ rest, isLine l := fun l hl => hlines l (List.mem_cons_of_mem _ hl)
    by_cases hpos : s.guessesLeft > 0
    · obtain ⟨v, hv, _⟩ := validate_input_of_line line n words hline
      by_cases ha : v.accepted = true
      · have hg := guessOf_of_accepted n words line v hv ha
        rw [validatedGuesses_cons_some n words line v.buffer rest hg]
        obtain ⟨k, hk⟩ : ∃ k, s.guessesLeft = k + 1 := ⟨s.guessesLeft - 1, by omega⟩
        by_cases hw : v.buffer = answer
        · rw [hw] at hg
          refine ⟨{ s with correctGuess := true },
            game_loop_correct n words answer line rest s hpos hg, ?_, ?_, ?_⟩
          · intro _; rfl
          · intro h; exact absurd (by rw [hk, hw]; simp) h
          · intro h; exact absurd (by rw [hk, hw]; simp) h
        · obtain ⟨check, _, hstep⟩ :=
            game_loop_incorrect n words answer line v.buffer rest s hpos hg hw hline hans
          obtain ⟨fin, hfin, h1, h2, h3⟩ :=
            ih { s with guessesLeft := s.guessesLeft - 1, rows := s.rows ++ [check] }
              hrestl hc he
          have hk2 : s.guessesLeft - 1 = k := by omega
          simp only [hk2] at h1 h2 h3
          have hmem : answer ∈ (v.buffer :: validatedGuesses n words rest).take (k + 1) ↔
              answer ∈ (validatedGuesses n words rest).take k := by
            rw [List.take_succ_cons, List.mem_cons]
            constructor
            · rintro (h | h)
              · exact absurd h.symm hw
              · exact h
            · exact fun h => Or.inr h
          refine ⟨fin, by rw [hstep, hfin], ?_, ?_, ?_⟩
          · intro h
            rw [hk] at h
            exact h1 (hmem.mp h)
          · intro h hle
            rw [hk] at h hle
            exact h2 (fun hc2 => h (hmem.mpr hc2)) (by simpa using hle)
          · intro h hlt
            rw [hk] at h hlt
            obtain ⟨e1, e2, e3⟩ := h3 (fun hc2 => h (hmem.mpr hc2)) (by simpa using hlt)
            refine ⟨e1, e2, ?_⟩
            rw [e3, hk]
            simp
      · have ha2 : v.accepted = false := by simpa using ha
        have hg := guessOf_of_rejected n words line v hv ha2
        rw [validatedGuesses_cons_none n words line rest hg,
          game_loop_rejected n words answer line rest s
            (rejects_of_rejected n words line v hv ha2)]
        exact ih s hrestl hc he
    · have h0 : s.guessesLeft = 0 := by omega
      refine ⟨s, by simp [game_loop, hpos], ?_, ?_, ?_⟩
      · intro h; rw [h0] at h; simp at h
      · intro _ _; exact ⟨hc, he, h0⟩
      · intro _ h; omega

/-- The value returned by `play_game`, from the validated guesses of the input. -/
theorem play_game_eq (n maxGuesses : Nat) (words : List (List Char)) (answer : List Char)
    (stdin : List (List Char)) (hans : answer.length = n) (hlines : ∀ l ∈ stdin, isLine l) :
    play_game n maxGuesses words answer stdin =
      some (expected_code maxGuesses answer (validatedGuesses n words stdin)) := by
  obtain ⟨fin, hfin, h1, h2, h3⟩ :=
    game_loop_run n words answer hans stdin (initial_session maxGuesses) hlines rfl rfl
  have hgl : (initial_session maxGuesses).guessesLeft = maxGuesses := rfl
  rw [hgl] at h1 h2 h3
  unfold play_game play_game_session expected_code
  rw [hfin, Option.map_some']
  by_cases hin : answer ∈ (validatedGuesses n words stdin).take maxGuesses
  · simp [hin, exit_code, h1 hin]
  · by_cases hle : maxGuesses ≤ (validatedGuesses n words stdin).length
    · obtain ⟨e1, e2, _⟩ := h2 hin hle
      simp [hin, hle, exit_code, e1, e2]
    · obtain ⟨e1, e2, _⟩ := h3 hin (by omega)
      simp [hin, hle, exit_code, e1, e2]

theorem game_loop_filter (n : Nat) (words : List (List Char)) (answer : List Char) :
    ∀ (stdin : List (List Char)) (s : Session),
      game_loop n words answer stdin s =
        game_loop n words answer (stdin.filter (fun l => !rejects n words l)) s := by
  intro stdin
  induction stdin with
  | nil => intro s; rfl
  | cons line rest ih =>
    intro s
    by_cases hrej : rejects n words line = true
    · rw [game_loop_rejected n words answer line rest s hrej,
        List.filter_cons_of_neg (by simp [hrej])]
      exact ih s
    · rw [List.filter_cons_of_pos (by simpa using hrej)]
      conv_lhs => unfold game_loop
      conv_rhs => unfold game_loop
      simp only [ih]

theorem mem_take_append_cons {α : Type} (A B : List α) (x : α) (m : Nat)
    (h : A.length < m) : x ∈ (A ++ x :: B).take m := by
  obtain ⟨k, hk⟩ : ∃ k, m - A.length = k + 1 := ⟨m - A.length - 1, by omega⟩
  rw [List.take_append_eq_append_take, hk, List.take_succ_cons]
  exact List.mem_append_right _ (List.mem_cons_self _ _)

theorem not_mem_take_of_not_mem {α : Type} (l : List α) (x : α) (m : Nat) (h : x ∉ l) :
    x ∉ l.take m :=
  fun hc => h (List.mem_of_mem_take hc)

theorem outcome_won (fin : Session) (h : fin.correctGuess = true) :
    fin.outcome = Outcome.Won := by
  simp [Session.outcome, h]

theorem outcome_exhausted (fin : Session) (h1 : fin.correctGuess = false)
    (h2 : fin.eofQuit = false) (h3 : fin.guessesLeft = 0) :
    fin.outcome = Outcome.LostExhausted := by
  simp [Session.outcome, h1, h2, h3]

theorem outcome_early (fin : Session) (h1 : fin.correctGuess = false)
    (h2 : fin.eofQuit = true) : fin.outcome = Outcome.LostEarlyTermination := by
  simp [Session.outcome, h1, h2]

/-! ## Claims about `play_game` -/

/-- C7: a line that `validate_input` rejects does not consume an attempt: the
loop goes on to the next line in the same state (same `guessesLeft`, same
flags), in every state and in particular when `guessesLeft > 0`; hence the final
session state and the value returned by `play_game` are those of the input with
all rejected lines removed. -/
theorem rejected_line_keeps_attempts (n maxGuesses : Nat) (words : List (List Char))
    (answer : List Char) (stdin : List (List Char)) :
    (∀ (line : List Char) (rest : List (List Char)) (s : Session),
      0 < s.guessesLeft → rejects n words line = true →
      game_loop n words answer (line :: rest) s = game_loop n words answer rest s) ∧
    play_game_session n maxGuesses words answer stdin =
      play_game_session n maxGuesses words answer
        (stdin.filter (fun l => !rejects n words l)) ∧
    play_game n maxGuesses words answer stdin =
      play_game n maxGuesses words answer (stdin.filter (fun l => !rejects n words l)) := by
  have hf := game_loop_filter n words answer stdin (initial_session maxGuesses)
  refine ⟨fun line rest s _ hrej => game_loop_rejected n words answer line rest s hrej,
    hf, ?_⟩
  unfold play_game play_game_session
  rw [hf]

/-- An instance of C7: with one attempt, the rejected line "cat" before the
correct guess "crate" does not cost the attempt, and the game is won as it is
without that line. -/
theorem rejected_line_keeps_attempts_witness :
    0 < (initial_session 1).guessesLeft ∧ rejects 5 smallDict line_cat = true ∧
    play_game 5 1 smallDict crate [line_cat, line_crate] = some 0 ∧
    game_loop 5 smallDict crate [line_cat, line_crate] (initial_session 1) =
      game_loop 5 smallDict crate [line_crate] (initial_session 1) ∧
    play_game_session 5 1 smallDict crate [line_cat, line_crate] =
      play_game_session 5 1 smallDict crate
        ([line_cat, line_crate].filter (fun l => !rejects 5 smallDict l)) ∧
    play_game 5 1 smallDict crate [line_cat, line_crate] =
      play_game 5 1 smallDict crate
        ([line_cat, line_crate].filter (fun l => !rejects 5 smallDict l)) :=
  ⟨by decide, by decide, by decide,
    (rejected_line_keeps_attempts 5 1 smallDict crate [line_cat, line_crate]).1
      line_cat [line_crate] (initial_session 1) (by decide) (by decide),
    (rejected_line_keeps_attempts 5 1 smallDict crate [line_cat, line_crate]).2⟩

/-- C8: if the input is made of lines read by `fgets` and a validated guess that
equals the secret answer (after the lowercase normalisation of
`validate_input`) is preceded by fewer than `maxGuesses` validated guesses, as
the first such guess is when fewer than `maxGuesses` validated incorrect guesses
come before it, then `play_game` returns 0 and the session ends in Won; a
correct guess on the last attempt wins. -/
theorem correct_guess_wins (n maxGuesses : Nat) (words : List (List Char))
    (answer line : List Char) (pre post : List (List Char))
    (hlines : ∀ l ∈ pre ++ line :: post, isLine l)
    (hwin : guessOf n words line = some answer)
    (hbudget : (validatedGuesses n words pre).length < maxGuesses) :
    play_game n maxGuesses words answer (pre ++ line :: post) = some 0 ∧
    (play_game_session n maxGuesses words answer (pre ++ line :: post)).map Session.outcome =
      some Outcome.Won := by
  have hline : isLine line := hlines line (by simp)
  obtain ⟨v, hv, ha, hb⟩ := guessOf_eq_some n words line answer hwin
  obtain ⟨v2, hv2, hword⟩ := validate_input_of_line line n words hline
  rw [hv] at hv2
  have hvv : v = v2 := Option.some.inj hv2
  subst hvv
  have hans : answer.length = n := by rw [← hb]; exact (hword ha).1
  have hvg : validatedGuesses n words (pre ++ line :: post) =
      validatedGuesses n words pre ++ answer :: validatedGuesses n words post := by
    unfold validatedGuesses
    rw [List.filterMap_append, List.filterMap_cons, hwin]
  have hin : answer ∈ (validatedGuesses n words (pre ++ line :: post)).take maxGuesses := by
    rw [hvg]
    exact mem_take_append_cons _ _ _ _ hbudget
  obtain ⟨fin, hfin, h1, _, _⟩ :=
    game_loop_run n words answer hans (pre ++ line :: post) (initial_session maxGuesses)
      hlines rfl rfl
  have hc : fin.correctGuess = true := h1 hin
  constructor
  · unfold play_game play_game_session
    rw [hfin, Option.map_some']
    simp [exit_code, hc]
  · unfold play_game_session
    rw [hfin, Option.map_some', outcome_won fin hc]

/-- An instance of C8: with two attempts, an incorrect validated guess followed
by the correct guess, made on the last attempt, wins. -/
theorem correct_guess_wins_witness :
    (∀ l ∈ [line_CrAnE] ++ line_crate :: [line_cat], isLine l) ∧
    guessOf 5 smallDict line_crate = some crate ∧
    crate ∉ validatedGuesses 5 smallDict [line_CrAnE] ∧
    (validatedGuesses 5 smallDict [line_CrAnE]).length < 2 ∧
    play_game 5 2 smallDict crate ([line_CrAnE] ++ line_crate :: [line_cat]) = some 0 ∧
    (play_game_session 5 2 smallDict crate
      ([line_CrAnE] ++ line_crate :: [line_cat])).map Session.outcome = some Outcome.Won :=
  ⟨by decide, by decide, by decide, by decide,
    correct_guess_wins 5 2 smallDict crate line_crate [line_CrAnE] [line_cat]
      (by decide) (by decide) (by decide)⟩

/-- C9: a validated guess that differs from the secret answer takes exactly one
from `guessesLeft` (and its feedback row is rendered); and on an input made of
lines read by `fgets`, with an answer of the length of the session, `play_game`
returns, and it returns 3, the session ending in LostExhausted, exactly when
there are at least `maxGuesses` validated guesses and none of the first
`maxGuesses` of them is the answer. -/
theorem exhaustion_transition (n maxGuesses : Nat) (words : List (List Char))
    (answer : List Char) (stdin : List (List Char))
    (hans : answer.length = n) (hlines : ∀ l ∈ stdin, isLine l) :
    (∀ (line w : List Char) (rest : List (List Char)) (s : Session),
      isLine line → 0 < s.guessesLeft → guessOf n words line = some w → w ≠ answer →
      ∃ check, check_guess w answer n = some check ∧
        game_loop n words answer (line :: rest) s =
          game_loop n words answer rest
            { s with guessesLeft := s.guessesLeft - 1, rows := s.rows ++ [check] }) ∧
    (∃ code, play_game n maxGuesses words answer stdin = some code ∧
      (code = 3 ↔ (maxGuesses ≤ (validatedGuesses n words stdin).length ∧
        answer ∉ (validatedGuesses n words stdin).take maxGuesses))) ∧
    ((play_game_session n maxGuesses words answer stdin).map Session.outcome =
        some Outcome.LostExhausted ↔
      (maxGuesses ≤ (validatedGuesses n words stdin).length ∧
        answer ∉ (validatedGuesses n words stdin).take maxGuesses)) := by
  refine ⟨fun line w rest s hline hpos hg hw =>
    game_loop_incorrect n words answer line w rest s hpos hg hw hline hans, ?_, ?_⟩
  · refine ⟨_, play_game_eq n maxGuesses words answer stdin hans hlines, ?_⟩
    unfold expected_code
    by_cases hin : answer ∈ (validatedGuesses n words stdin).take maxGuesses
    · simp [hin]
    · by_cases hle : maxGuesses ≤ (validatedGuesses n words stdin).length
      · simp [hin, hle]
      · simp [hin, hle]
  · obtain ⟨fin, hfin, h1, h2, h3⟩ :=
      game_loop_run n words answer hans stdin (initial_session maxGuesses) hlines rfl rfl
    have hgl : (initial_session maxGuesses).guessesLeft = maxGuesses := rfl
    rw [hgl] at h1 h2 h3
    unfold play_game_session
    rw [hfin, Option.map_some']
    by_cases hin : answer ∈ (validatedGuesses n words stdin).take maxGuesses
    · rw [outcome_won fin (h1 hin)]
      simp [hin]
    · by_cases hle : maxGuesses ≤ (validatedGuesses n words stdin).length
      · obtain ⟨e1, e2, e3⟩ := h2 hin hle
        rw [outcome_exhausted fin e1 e2 e3]
        simp [hin, hle]
      · obtain ⟨e1, e2, _⟩ := h3 hin (by omega)
        rw [outcome_early fin e1 e2]
        simp [hle]

/-- Example 5 of the specification, an instance of C9: with `maxGuesses = 1` a
single validated incorrect guess ends the session as LostExhausted, with the
value 3 returned. -/
theorem exhaustion_transition_witness :
    play_game 5 1 smallDict crate [line_CrAnE] = some 3 ∧
    (play_game_session 5 1 smallDict crate [line_CrAnE]).map Session.outcome =
      some Outcome.LostExhausted ∧
    crate.length = 5 ∧ (∀ l ∈ [line_CrAnE], isLine l) ∧ isLine line_CrAnE ∧
    0 < (initial_session 1).guessesLeft ∧ guessOf 5 smallDict line_CrAnE = some crane ∧
    crane ≠ crate ∧
    (∃ check, check_guess crane crate 5 = some check ∧
      game_loop 5 smallDict crate (line_CrAnE :: []) (initial_session 1) =
        game_loop 5 smallDict crate []
          { initial_session 1 with guessesLeft := (initial_session 1).guessesLeft - 1,
                                   rows := (initial_session 1).rows ++ [check] }) ∧
    (∃ code, play_game 5 1 smallDict crate [line_CrAnE] = some code ∧
      (code = 3 ↔ (1 ≤ (validatedGuesses 5 smallDict [line_CrAnE]).length ∧
        crate ∉ (validatedGuesses 5 smallDict [line_CrAnE]).take 1))) ∧
    ((play_game_session 5 1 smallDict crate [line_CrAnE]).map Session.outcome =
        some Outcome.LostExhausted ↔
      (1 ≤ (validatedGuesses 5 smallDict [line_CrAnE]).length ∧
        crate ∉ (validatedGuesses 5 smallDict [line_CrAnE]).take 1)) :=
  ⟨by decide, by decide, by decide, by decide, by decide, by decide, by decide, by decide,
    (exhaustion_transition 5 1 smallDict crate [line_CrAnE] (by decide) (by decide)).1
      line_CrAnE crane [] (initial_session 1) (by decide) (by decide) (by decide)
      (by decide),
    (exhaustion_transition 5 1 smallDict crate [line_CrAnE] (by decide) (by decide)).2⟩

/-- C10: in every state of the loop with `guessesLeft > 0` (and no correct guess
so far), end of input ends the session in LostEarlyTermination with
`guessesLeft` unchanged, and the value returned is 1, which is neither 0 (Won)
nor 3 (LostExhausted); so on an input of lines read by `fgets` that ends before
the answer is guessed and before `maxGuesses` validated guesses are made,
`play_game` returns 1. -/
theorem eof_ends_session (n maxGuesses : Nat) (words : List (List Char))
    (answer : List Char) (stdin : List (List Char)) :
    (∀ s : Session, 0 < s.guessesLeft → s.correctGuess = false →
      ∃ fin, game_loop n words answer [] s = some fin ∧
        fin.outcome = Outcome.LostEarlyTermination ∧ exit_code fin = 1 ∧
        exit_code fin ≠ 0 ∧ exit_code fin ≠ 3 ∧ fin.guessesLeft = s.guessesLeft) ∧
    (answer.length = n → (∀ l ∈ stdin, isLine l) →
      answer ∉ validatedGuesses n words stdin →
      (validatedGuesses n words stdin).length < maxGuesses →
      play_game n maxGuesses words answer stdin = some 1 ∧
      ∃ fin, play_game_session n maxGuesses words answer stdin = some fin ∧
        fin.outcome = Outcome.LostEarlyTermination ∧
        fin.guessesLeft = maxGuesses - (validatedGuesses n words stdin).length) := by
  constructor
  · intro s hpos hc
    refine ⟨{ s with eofQuit := true }, by simp [game_loop, hpos], ?_, ?_, ?_, ?_, rfl⟩
    · exact outcome_early _ hc rfl
    · simp [exit_code, hc]
    · simp [exit_code, hc]
    · simp [exit_code, hc]
  · intro hans hlines hnot hfew
    have hin : answer ∉ (validatedGuesses n words stdin).take maxGuesses :=
      not_mem_take_of_not_mem _ _ _ hnot
    constructor
    · rw [play_game_eq n maxGuesses words answer stdin hans hlines]
      unfold expected_code
      rw [if_neg hin, if_neg (by omega)]
    · obtain ⟨fin, hfin, _, _, h3⟩ :=
        game_loop_run n words answer hans stdin (initial_session maxGuesses) hlines rfl rfl
      have hgl : (initial_session maxGuesses).guessesLeft = maxGuesses := rfl
      rw [hgl] at h3
      obtain ⟨e1, e2, e3⟩ := h3 hin hfew
      exact ⟨fin, hfin, outcome_early fin e1 e2, e3⟩

/-- Example 6 of the specification, an instance of C10: end of input on the
first turn ends the session in LostEarlyTermination with `guessesLeft` still
equal to `maxGuesses`. -/
theorem eof_ends_session_witness :
    play_game_session 5 6 smallDict crate [] =
      some { guessesLeft := 6, correctGuess := false, eofQuit := true, rows := [] } ∧
    0 < (initial_session 6).guessesLeft ∧ (initial_session 6).correctGuess = false ∧
    crate.length = 5 ∧ (∀ l ∈ ([] : List (List Char)), isLine l) ∧
    crate ∉ validatedGuesses 5 smallDict [] ∧
    (validatedGuesses 5 smallDict []).length < 6 ∧
    (∃ fin, game_loop 5 smallDict crate [] (initial_session 6) = some fin ∧
      fin.outcome = Outcome.LostEarlyTermination ∧ exit_code fin = 1 ∧
      exit_code fin ≠ 0 ∧ exit_code fin ≠ 3 ∧
      fin.guessesLeft = (initial_session 6).guessesLeft) ∧
    (play_game 5 6 smallDict crate [] = some 1 ∧
      ∃ fin, play_game_session 5 6 smallDict crate [] = some fin ∧
        fin.outcome = Outcome.LostEarlyTermination ∧
        fin.guessesLeft = 6 - (validatedGuesses 5 smallDict []).length) :=
  ⟨by decide, by decide, by decide, by decide, by decide, by decide, by decide,
    (eof_ends_session 5 6 smallDict crate []).1 (initial_session 6) (by decide) (by decide),
    (eof_ends_session 5 6 smallDict crate []).2 (by decide) (by decide) (by decide)
      (by decide)⟩

/-! ## Further claims about `check_guess` -/

theorem verdictOf_verdictChar_of_guess (l : List (Char × Char)) (k : Nat) (p : Char × Char)
    (h1 : p.1.isLower = true) :
    verdictOf (verdictChar l k p) = some (closedVerdict l k p) := by
  by_cases h : p.1 = p.2
  · exact verdictOf_verdictChar l k p h1 (h ▸ h1)
  · unfold verdictChar closedVerdict
    rw [if_neg h, if_neg h]
    by_cases hlt : usedBefore l p.1 k < remaining l p.1
    · rw [if_pos hlt, if_pos hlt, toLower_of_isLower _ h1]
      exact verdictOf_of_isLower _ h1
    · rw [if_neg hlt, if_neg hlt]
      exact verdictOf_BLANK

/-- The closed form holds as soon as the guess is a word, whatever the
characters of the answer. -/
theorem check_guess_eq_of_guess (g a : List Char) (n : Nat) (hg : g.length = n)
    (ha : a.length = n) (hgw : isWord g) :
    check_guess g a n = some (verdictChars (g.zip a)) := by
  apply check_guess_of_chars g a n hg ha (fun c hc => ne_BLANK_of_isLower c (hgw c hc))
  intro c hc
  obtain ⟨k, hk⟩ := List.mem_iff_getElem?.mp hc
  rw [verdictChars_getElem?] at hk
  cases hp : (g.zip a)[k]? with
  | none => rw [hp] at hk; exact absurd hk (by simp)
  | some p =>
    rw [hp, Option.map_some'] at hk
    have hc2 := Option.some.inj hk
    have hmem : p ∈ g.zip a := List.mem_iff_getElem?.mpr ⟨k, hp⟩
    have hp1 : p.1.isLower = true := hgw _ (List.of_mem_zip hmem).1
    have hv := verdictOf_verdictChar_of_guess (g.zip a) k p hp1
    rw [hc2] at hv
    intro hnul
    have hn : verdictOf NULL_BYTE = none := by decide
    rw [hnul, hn] at hv
    exact absurd hv (by simp)

theorem mem_zip_self (l : List Char) (p : Char × Char) (h : p ∈ l.zip l) : p.1 = p.2 := by
  induction l with
  | nil => simp at h
  | cons x l ih =>
    simp only [List.zip_cons_cons, List.mem_cons] at h
    rcases h with h | h
    · rw [h]
    · exact ih h

/-- A guess that is a word and differs from an answer of the same length has a
position whose verdict is Present or Absent. -/
theorem row_has_miss (g a : List Char) (n : Nat) (hg : g.length = n) (ha : a.length = n)
    (hgw : isWord g) (hne : g ≠ a) :
    ∃ c ∈ verdictChars (g.zip a),
      verdictOf c = some Verdict.Present ∨ verdictOf c = some Verdict.Absent := by
  have hex : ∃ i : Nat, g[i]? ≠ a[i]? := by
    by_contra hall
    push_neg at hall
    exact hne (List.ext_getElem? hall)
  obtain ⟨i, hi⟩ := hex
  have hin : i < n := by
    by_contra hge
    apply hi
    rw [List.getElem?_eq_none (by omega), List.getElem?_eq_none (by omega)]
  have hx : g[i]? = some (g[i]) := List.getElem?_eq_getElem (by omega)
  have hy : a[i]? = some (a[i]) := List.getElem?_eq_getElem (by omega)
  have hxy : g[i] ≠ a[i] := by
    intro h
    apply hi
    rw [hx, hy, h]
  have hz := zip_getElem?_some g a i _ _ hx hy
  have hr : (verdictChars (g.zip a))[i]? = some (verdictChar (g.zip a) i (g[i], a[i])) := by
    rw [verdictChars_getElem?, hz]; rfl
  refine ⟨_, List.mem_iff_getElem?.mpr ⟨i, hr⟩, ?_⟩
  rw [verdictOf_verdictChar_of_guess _ _ _ (hgw _ (List.getElem_mem (by omega)))]
  unfold closedVerdict
  by_cases hlt : usedBefore (g.zip a) g[i] i < remaining (g.zip a) g[i]
  · left; simp [hxy, hlt]
  · right; simp [hxy, hlt]

/-- Every feedback row added by the loop has a Present or an Absent verdict. -/
theorem game_loop_rows (n : Nat) (words : List (List Char)) (answer : List Char)
    (hans : answer.length = n) :
    ∀ (stdin : List (List Char)) (s fin : Session), (∀ l ∈ stdin, isLine l) →
      (∀ row ∈ s.rows, ∃ c ∈ row,
        verdictOf c = some Verdict.Present ∨ verdictOf c = some Verdict.Absent) →
      game_loop n words answer stdin s = some fin →
      ∀ row ∈ fin.rows, ∃ c ∈ row,
        verdictOf c = some Verdict.Present ∨ verdictOf c = some Verdict.Absent := by
  intro stdin
  induction stdin with
  | nil =>
    intro s fin _ hrows hfin
    by_cases hpos : s.guessesLeft > 0
    · simp only [game_loop, hpos, if_true, Option.some.injEq] at hfin
      rw [← hfin]; exact hrows
    · simp only [game_loop, hpos, if_false, Option.some.injEq] at hfin
      rw [← hfin]; exact hrows
  | cons line rest ih =>
    intro s fin hlines hrows hfin
    have hline : isLine line := hlines line (List.mem_cons_self _ _)
    have hrestl : ∀ l ∈ rest, isLine l := fun l hl => hlines l (List.mem_cons_of_mem _ hl)
    by_cases hpos : s.guessesLeft > 0
    · obtain ⟨v, hv, hword⟩ := validate_input_of_line line n words hline
      by_cases ha : v.accepted = true
      · have hg := guessOf_of_accepted n words line v hv ha
        obtain ⟨hlen, hisw⟩ := hword ha
        by_cases hw : v.buffer = answer
        · rw [hw] at hg
          rw [game_loop_correct n words answer line rest s hpos hg] at hfin
          rw [← Option.some.inj hfin]; exact hrows
        · obtain ⟨check, hcheck, hstep⟩ :=
            game_loop_incorrect n words answer line v.buffer rest s hpos hg hw hline hans
          rw [hstep] at hfin
          refine ih _ fin hrestl ?_ hfin
          intro row hrow
          simp only [List.mem_append, List.mem_singleton] at hrow
          rcases hrow with h | h
          · exact hrows row h
          · rw [check_guess_eq_of_guess v.buffer answer n hlen hans hisw] at hcheck
            rw [h, ← Option.some.inj hcheck]
            exact row_has_miss v.buffer answer n hlen hans hisw hw
      · have ha2 : v.accepted = false := by simpa using ha
        rw [game_loop_rejected n words answer line rest s
          (rejects_of_rejected n words line v hv ha2)] at hfin
        exact ih s fin hrestl hrows hfin
    · simp only [game_loop, hpos, if_false, Option.some.injEq] at hfin
      rw [← hfin]; exact hrows

/-- C18: for a guess `g` and an answer `a` that are lowercase words of the same
length `n`, every verdict of `check_guess g a n` is Correct if and only if
`g = a`; and every feedback row that the game loop renders (on lines read by
`fgets`, with an answer of the length of the session) has a Present or an Absent
verdict. -/
theorem all_correct_iff_answer (g a : List Char) (n maxGuesses : Nat)
    (words : List (List Char)) (answer : List Char) (stdin : List (List Char))
    (hg : g.length = n) (ha : a.length = n) (hgw : isWord g) (haw : isWord a) :
    (∃ r, check_guess g a n = some r ∧
      ((∀ c ∈ r, verdictOf c = some Verdict.Correct) ↔ g = a)) ∧
    (answer.length = n → (∀ l ∈ stdin, isLine l) →
      ∃ fin, play_game_session n maxGuesses words answer stdin = some fin ∧
        ∀ row ∈ fin.rows, ∃ c ∈ row,
          verdictOf c = some Verdict.Present ∨ verdictOf c = some Verdict.Absent) := by
  constructor
  · refine ⟨verdictChars (g.zip a), check_guess_eq g a n hg ha hgw haw, ?_⟩
    constructor
    · intro hall
      by_contra hne
      obtain ⟨c, hc, hv⟩ := row_has_miss g a n hg ha hgw hne
      rw [hall c hc] at hv
      rcases hv with h | h <;> exact absurd h (by decide)
    · intro heq c hc
      obtain ⟨k, hk⟩ := List.mem_iff_getElem?.mp hc
      rw [verdictChars_getElem?] at hk
      cases hp : (g.zip a)[k]? with
      | none => rw [hp] at hk; exact absurd hk (by simp)
      | some p =>
        rw [hp, Option.map_some'] at hk
        have hmem : p ∈ g.zip a := List.mem_iff_getElem?.mpr ⟨k, hp⟩
        have hp1 : p.1.isLower = true := hgw _ (List.of_mem_zip hmem).1
        have hpp : p.1 = p.2 := by
          rw [heq] at hmem
          exact mem_zip_self a p hmem
        rw [← Option.some.inj hk, verdictOf_verdictChar_of_guess _ _ _ hp1]
        simp [closedVerdict, hpp]
  · intro hans hlines
    obtain ⟨fin, hfin, _⟩ :=
      game_loop_run n words answer hans stdin (initial_session maxGuesses) hlines rfl rfl
    refine ⟨fin, hfin, ?_⟩
    exact game_loop_rows n words answer hans stdin (initial_session maxGuesses) fin hlines
      (by intro row hrow; simp [initial_session] at hrow) hfin

/-- An instance of C18: "crate" against "crate" is all Correct, "crane" against
"crate" is not, and the one row rendered for the guess "CrAnE" is "CRA-E", with
an Absent verdict. -/
theorem all_correct_iff_answer_witness :
    check_guess crate crate 5 = some ['C', 'R', 'A', 'T', 'E'] ∧
    (play_game_session 5 2 smallDict crate [line_CrAnE]).map Session.rows =
      some [['C', 'R', 'A', '-', 'E']] ∧
    crane.length = 5 ∧ crate.length = 5 ∧ isWord crane ∧ isWord crate ∧
    (∀ l ∈ [line_CrAnE], isLine l) ∧
    (∃ r, check_guess crane crate 5 = some r ∧
      ((∀ c ∈ r, verdictOf c = some Verdict.Correct) ↔ crane = crate)) ∧
    (∃ fin, play_game_session 5 2 smallDict crate [line_CrAnE] = some fin ∧
        ∀ row ∈ fin.rows, ∃ c ∈ row,
          verdictOf c = some Verdict.Present ∨ verdictOf c = some Verdict.Absent) :=
  ⟨by decide, by decide, by decide, by decide, by decide, by decide, by decide,
    (all_correct_iff_answer crane crate 5 2 smallDict crate [line_CrAnE]
      (by decide) (by decide) (by decide) (by decide)).1,
    (all_correct_iff_answer crane crate 5 2 smallDict crate [line_CrAnE]
      (by decide) (by decide) (by decide) (by decide)).2 (by decide) (by decide)⟩

/-- C19, the exact multiset law: for a guess `g` and an answer `a` that are
lowercase words of the same length `n` and every letter `c`, the number of
positions `i` with `g[i] = c` whose verdict is Correct or Present is exactly the
minimum of the number of occurrences of `c` in `g` and in `a`; so when some
occurrence of `c` in the guess is not credited, every occurrence of `c` in the
answer is reported. -/
theorem check_guess_exact_multiset (g a : List Char) (n : Nat)
    (hg : g.length = n) (ha : a.length = n) (hgw : isWord g) (haw : isWord a) (c : Char) :
    ∃ r, check_guess g a n = some r ∧
      creditedCount g r c = min (g.count c) (a.count c) ∧
      (creditedCount g r c < g.count c → creditedCount g r c = a.count c) := by
  refine ⟨verdictChars (g.zip a), check_guess_eq g a n hg ha hgw haw, ?_, ?_⟩
  · rw [creditedCount_eq g a n hg ha hgw haw c, count_answer g a n hg ha c,
      count_guess g a n hg ha c]
    omega
  · rw [creditedCount_eq g a n hg ha hgw haw c, count_answer g a n hg ha c,
      count_guess g a n hg ha c]
    omega

/-- An instance of C19: in "allee" against "label" the letter `l`, twice in both
words, is credited twice, and the letter `e`, twice in the guess and once in the
answer, is credited once. -/
theorem check_guess_exact_multiset_witness :
    creditedCount allee ['a', 'l', 'l', 'E', '-'] 'l' = 2 ∧
    creditedCount allee ['a', 'l', 'l', 'E', '-'] 'e' = 1 ∧
    allee.count 'e' = 2 ∧ label.count 'e' = 1 ∧
    ∃ r, check_guess allee label 5 = some r ∧
      creditedCount allee r 'e' = min (allee.count 'e') (label.count 'e') ∧
      (creditedCount allee r 'e' < allee.count 'e' →
        creditedCount allee r 'e' = label.count 'e') :=
  ⟨by decide, by decide, by decide, by decide,
    check_guess_exact_multiset allee label 5 (by decide) (by decide) (by decide)
      (by decide) 'e'⟩

/-! ## `get_random_word` -/

/-- When no entry has the requested length, the loop of `get_random_word` is
still running after any number of draws. -/
theorem get_random_word_spins (words : List (List Char)) (length : Nat)
    (hne : words ≠ []) (hnone : ∀ w ∈ words, w.length ≠ length) :
    ∀ draws : List Nat, get_random_word words words.length length draws = Run.spinning := by
  intro draws
  induction draws with
  | nil => rfl
  | cons d draws ih =>
    have hpos : 0 < words.length := List.length_pos.mpr hne
    have hlt : d % words.length < words.length := Nat.mod_lt _ hpos
    have hget : words[d % words.length]? = some (words[d % words.length]) :=
      List.getElem?_eq_getElem hlt
    unfold get_random_word
    simp only [Nat.pos_iff_ne_zero.mp hpos, if_false, hget]
    rw [if_neg (hnone _ (List.getElem_mem hlt))]
    exact ih

/-- What `get_random_word` returns is an entry of the requested length. -/
theorem get_random_word_returns (words : List (List Char)) (size length : Nat)
    (w : List Char) :
    ∀ draws : List Nat, get_random_word words size length draws = Run.returns w →
      w ∈ words ∧ w.length = length := by
  intro draws
  induction draws with
  | nil => intro h; simp [get_random_word] at h
  | cons d draws ih =>
    intro h
    unfold get_random_word at h
    by_cases hs : size = 0
    · simp [hs] at h
    · simp only [hs, if_false] at h
      cases hget : words[d % size]? with
      | none => rw [hget] at h; simp at h
      | some t =>
        rw [hget] at h
        by_cases hl : t.length = length
        · simp only [hl, if_true, Run.returns.injEq] at h
          rw [← h]
          exact ⟨List.mem_iff_getElem?.mpr ⟨_, hget⟩, hl⟩
        · simp only [hl, if_false] at h
          exact ih h

/-- The code at the failing input of C16: with the one-word dictionary "crane"
and the requested length 3, `get_random_word` returns nothing and reports
nothing: whatever the draws and however many, the loop is still running. -/
theorem get_random_word_no_word_of_length :
    get_random_word [crane] 1 3 [0, 1, 2, 3] = Run.spinning ∧
    ∀ draws : List Nat, get_random_word [crane] 1 3 draws = Run.spinning :=
  ⟨by decide, get_random_word_spins [crane] 3 (by decide) (by decide)⟩

/-! ## `load_words` -/

theorem toLower_toNat (c : Char) :
    c.toLower.toNat = if 65 ≤ c.toNat ∧ c.toNat ≤ 90 then c.toNat + 32 else c.toNat := by
  unfold Char.toLower
  by_cases h : 65 ≤ c.toNat ∧ c.toNat ≤ 90
  · simp only [ge_iff_le, h, and_self, if_true]
    exact toNat_ofNat_small _ (by omega)
  · simp only [ge_iff_le, h, if_false]

theorem toNat_injective (c d : Char) (h : c.toNat = d.toNat) : c = d := by
  rw [← Char.ofNat_toNat c, ← Char.ofNat_toNat d, h]

theorem toLower_ne_APOSTROPHE (c : Char) (h : c ≠ APOSTROPHE) : c.toLower ≠ APOSTROPHE := by
  intro hc
  have h1 := toLower_toNat c
  rw [hc] at h1
  have h2 : APOSTROPHE.toNat = 39 := by decide
  rw [h2] at h1
  apply h
  apply toNat_injective
  rw [h2]
  split at h1 <;> omega

theorem toLower_ne_NULL_BYTE (c : Char) (h : c ≠ NULL_BYTE) : c.toLower ≠ NULL_BYTE := by
  intro hc
  have h1 := toLower_toNat c
  rw [hc] at h1
  have h2 : NULL_BYTE.toNat = 0 := by decide
  rw [h2] at h1
  apply h
  apply toNat_injective
  rw [h2]
  split at h1 <;> omega

theorem cstr_append_nul_cons (xs rest : List Char) (h : ∀ c ∈ xs, c ≠ NULL_BYTE) :
    cstr (xs ++ NULL_BYTE :: rest) = xs := by
  unfold cstr
  induction xs with
  | nil => simp [List.takeWhile]
  | cons x xs ih =>
    have hx : x ≠ NULL_BYTE := h x (List.mem_cons_self _ _)
    simp only [List.cons_append, List.takeWhile_cons, bne_iff_ne, ne_eq, hx, not_false_eq_true,
      if_true]
    rw [ih (fun c hc => h c (List.mem_cons_of_mem _ hc))]

/-- The iterations of the inner loop over a stretch `seg` of the line that has
no apostrophe: the stretch is copied in lowercase. -/
theorem copy_loop_segment (post junk2 : List Char) (f ws : Nat) :
    ∀ (seg pre junk1 : List Char), junk1.length = seg.length →
      (∀ c ∈ seg, c.toLower ≠ APOSTROPHE) → pre.length + seg.length ≤ ws →
      copy_loop (pre ++ seg ++ post) (f + seg.length) pre.length ws
          (pre.map Char.toLower ++ junk1 ++ junk2) =
        copy_loop (pre ++ seg ++ post) f (pre.length + seg.length) ws
          ((pre ++ seg).map Char.toLower ++ junk2) := by
  intro seg
  induction seg with
  | nil =>
    intro pre junk1 hj _ _
    have : junk1 = [] := List.length_eq_zero.mp hj
    subst this
    simp
  | cons c seg ih =>
    intro pre junk1 hj hno hws
    cases junk1 with
    | nil => simp at hj
    | cons x junk1 =>
      have hj2 : junk1.length = seg.length := by simpa using hj
      have hc : c.toLower ≠ APOSTROPHE := hno c (List.mem_cons_self _ _)
      have hlt : pre.length < ws := by
        simp only [List.length_cons] at hws; omega
      have hread : (bytes (pre ++ c :: seg ++ post))[pre.length]? = some c := by
        unfold bytes
        rw [List.append_assoc, List.append_assoc, List.getElem?_append_right (le_refl _)]
        simp
      have hstore : store (pre.map Char.toLower ++ x :: junk1 ++ junk2) pre.length c.toLower =
          some ((pre ++ [c]).map Char.toLower ++ junk1 ++ junk2) := by
        unfold store
        rw [if_pos (by simp)]
        congr 1
        rw [List.append_assoc, List.set_append_right _ _ (by simp)]
        simp
      have hfuel : f + (c :: seg).length = (f + seg.length) + 1 := by
        simp only [List.length_cons]; omega
      rw [hfuel]
      conv_lhs => unfold copy_loop
      simp only [hlt, if_true, hread, Option.bind_eq_bind, Option.some_bind, hstore, hc, if_false]
      have hih := ih (pre ++ [c]) junk1 hj2
        (fun d hd => hno d (List.mem_cons_of_mem _ hd))
        (by simp only [List.length_append, List.length_cons, List.length_nil] at hws ⊢; omega)
      simp only [List.append_assoc, List.singleton_append, List.length_append,
        List.length_cons, List.length_nil, zero_add] at hih
      simp only [List.append_assoc, List.length_cons]
      rw [hih]
      congr 1
      omega

/-- The fuel that `load_word` gives to `copy_loop` is enough: once
`wordSize ≤ j + fuel`, more fuel does not change the result, so the loop is
never cut short. -/
theorem copy_loop_fuel_enough (loaded : List Char) :
    ∀ (fuel j wordSize : Nat) (word : List Char), wordSize ≤ j + fuel →
      copy_loop loaded (fuel + 1) j wordSize word = copy_loop loaded fuel j wordSize word := by
  intro fuel
  induction fuel with
  | zero =>
    intro j wordSize word h
    have hj : ¬ j < wordSize := by omega
    simp [copy_loop, hj]
  | succ fuel ih =>
    intro j wordSize word h
    conv_lhs => rw [copy_loop]
    conv_rhs => rw [copy_loop]
    by_cases hj : j < wordSize
    · simp only [hj, if_true]
      cases (bytes loaded)[j]? with
      | none => rfl
      | some c =>
        simp only [Option.bind_eq_bind, Option.some_bind]
        cases store word j c.toLower with
        | none => rfl
        | some word1 =>
          simp only [Option.some_bind]
          by_cases hc : c.toLower = APOSTROPHE
          · simp only [hc, if_true]
            cases store word1 j 's' with
            | none => rfl
            | some word2 =>
              simp only [Option.some_bind]
              exact ih (j + 1) (wordSize - 1) word2 (by omega)
          · simp only [hc, if_false]
            exact ih (j + 1) wordSize word1 (by omega)
    · simp only [hj, if_false]

/-- A line without apostrophe is stored in lowercase, without its line
terminator. -/
theorem load_word_plain (w : List Char) (hap : APOSTROPHE ∉ w) (hnul : NULL_BYTE ∉ w) :
    load_word (w ++ [NEWLINE]) = some (w.map Char.toLower) := by
  have hno : ∀ c ∈ w ++ [NEWLINE], c.toLower ≠ APOSTROPHE := by
    intro c hc
    rw [List.mem_append, List.mem_singleton] at hc
    rcases hc with h | h
    · exact toLower_ne_APOSTROPHE c (fun hc2 => hap (hc2 ▸ h))
    · rw [h]; decide
  have hseg := copy_loop_segment [] [] 0 (w ++ [NEWLINE]).length (w ++ [NEWLINE]) []
    (List.replicate (w ++ [NEWLINE]).length NULL_BYTE) (by simp) hno (by simp)
  simp only [List.append_nil, List.nil_append, List.map_nil, List.length_nil, zero_add]
    at hseg
  unfold load_word
  rw [hseg]
  simp only [copy_loop, Option.bind_eq_bind, Option.some_bind, List.length_append,
    List.length_singleton, Nat.add_one_ne_zero, if_false, Nat.add_sub_cancel]
  have hstore : store ((w ++ [NEWLINE]).map Char.toLower) w.length NULL_BYTE =
      some (w.map Char.toLower ++ [NULL_BYTE]) := by
    unfold store
    rw [if_pos (by simp)]
    congr 1
    rw [List.map_append, List.set_append_right _ _ (by simp)]
    simp
  rw [hstore]
  simp only [Option.some_bind, Option.pure_def, Option.some.injEq]
  apply cstr_append_nul
  intro c hc
  rw [List.mem_map] at hc
  obtain ⟨d, hd, rfl⟩ := hc
  exact toLower_ne_NULL_BYTE d (fun hc2 => hnul (hc2 ▸ hd))

/-- A line with an apostrophe before its last character is stored as the
lowercase of what precedes the apostrophe followed by `s`, whatever the last
character is. -/
theorem load_word_apostrophe (w : List Char) (c : Char) (hap : APOSTROPHE ∉ w)
    (hnul : NULL_BYTE ∉ w) (hc : c ≠ APOSTROPHE) :
    load_word (w ++ [APOSTROPHE, c, NEWLINE]) = some (w.map Char.toLower ++ ['s']) := by
  have hno : ∀ d ∈ w, d.toLower ≠ APOSTROPHE :=
    fun d hd => toLower_ne_APOSTROPHE d (fun hc2 => hap (hc2 ▸ hd))
  have hseg := copy_loop_segment [APOSTROPHE, c, NEWLINE] (List.replicate 3 NULL_BYTE) 3
    (w.length + 3) w [] (List.replicate w.length NULL_BYTE) (by simp) hno (by simp)
  simp only [List.nil_append, List.map_nil, List.length_nil, zero_add] at hseg
  have hrep : List.replicate (w ++ [APOSTROPHE, c, NEWLINE]).length NULL_BYTE =
      List.replicate w.length NULL_BYTE ++ List.replicate 3 NULL_BYTE := by
    rw [← List.replicate_add]; simp
  have hlen : (w ++ [APOSTROPHE, c, NEWLINE]).length = w.length + 3 := by simp
  have hfuel : w.length + 3 = 3 + w.length := by omega
  unfold load_word
  rw [hrep, hlen]
  conv_lhs => rw [hfuel]
  have hws : 3 + w.length = w.length + 3 := by omega
  rw [show copy_loop (w ++ [APOSTROPHE, c, NEWLINE]) (3 + w.length) 0 (3 + w.length)
      (List.replicate w.length NULL_BYTE ++ List.replicate 3 NULL_BYTE) =
    copy_loop (w ++ [APOSTROPHE, c, NEWLINE]) (3 + w.length) 0 (w.length + 3)
      (List.replicate w.length NULL_BYTE ++ List.replicate 3 NULL_BYTE) from by rw [hws]]
  rw [hseg]
  have hread0 : (bytes (w ++ [APOSTROPHE, c, NEWLINE]))[w.length]? = some APOSTROPHE := by
    unfold bytes
    rw [List.append_assoc, List.getElem?_append_right (le_refl _)]
    simp
  have hread1 : (bytes (w ++ [APOSTROPHE, c, NEWLINE]))[w.length + 1]? = some c := by
    unfold bytes
    rw [List.append_assoc, List.getElem?_append_right (by omega)]
    simp
  have hlow : APOSTROPHE.toLower = APOSTROPHE := by decide
  have hcl : c.toLower ≠ APOSTROPHE := toLower_ne_APOSTROPHE c hc
  have hs0 : ∀ x : Char, store (w.map Char.toLower ++ List.replicate 3 NULL_BYTE) w.length x =
      some (w.map Char.toLower ++ [x, NULL_BYTE, NULL_BYTE]) := by
    intro x
    unfold store
    rw [if_pos (by simp)]
    congr 1
    rw [List.set_append_right _ _ (by simp)]
    simp [List.replicate]
  have hs0b : ∀ x y : Char, store (w.map Char.toLower ++ [y, NULL_BYTE, NULL_BYTE]) w.length x =
      some (w.map Char.toLower ++ [x, NULL_BYTE, NULL_BYTE]) := by
    intro x y
    unfold store
    rw [if_pos (by simp)]
    congr 1
    rw [List.set_append_right _ _ (by simp)]
    simp
  have hs1 : ∀ x y : Char,
      store (w.map Char.toLower ++ [y, NULL_BYTE, NULL_BYTE]) (w.length + 1) x =
      some (w.map Char.toLower ++ [y, x, NULL_BYTE]) := by
    intro x y
    unfold store
    rw [if_pos (by simp)]
    congr 1
    rw [List.set_append_right _ _ (by simp)]
    simp
  have hs1b : ∀ x y z : Char,
      store (w.map Char.toLower ++ [y, z, NULL_BYTE]) (w.length + 1) x =
      some (w.map Char.toLower ++ [y, x, NULL_BYTE]) := by
    intro x y z
    unfold store
    rw [if_pos (by simp)]
    congr 1
    rw [List.set_append_right _ _ (by simp)]
    simp
  have hloop : copy_loop (w ++ [APOSTROPHE, c, NEWLINE]) 3 w.length (w.length + 3)
      (w.map Char.toLower ++ List.replicate 3 NULL_BYTE) =
      some (w.map Char.toLower ++ ['s', c.toLower, NULL_BYTE], w.length + 2) := by
    simp only [copy_loop, Nat.lt_add_right_iff_pos, Nat.ofNat_pos, if_true, hread0, hlow,
      Option.bind_eq_bind, Option.some_bind, hs0, hs0b, Nat.add_sub_cancel,
      Nat.lt_succ_self, hread1, hs1, hcl, if_false, Nat.add_lt_add_iff_left,
      Nat.one_lt_ofNat, lt_self_iff_false, Nat.lt_irrefl]
    simp
  rw [hloop]
  simp only [Option.bind_eq_bind, Option.some_bind, Nat.add_one_ne_zero, if_false,
    Nat.add_sub_cancel, hs1b, Option.pure_def, Option.some.injEq]
  have hsplit : w.map Char.toLower ++ ['s', NULL_BYTE, NULL_BYTE] =
      (w.map Char.toLower ++ ['s']) ++ NULL_BYTE :: [NULL_BYTE] := by simp
  have h2 : w.length + 2 - 1 = w.length + 1 := by omega
  simp only [h2, hs1b, Option.some_bind]
  rw [hsplit]
  congr 1
  apply cstr_append_nul_cons
  intro d hd
  rw [List.mem_append, List.mem_singleton] at hd
  rcases hd with h | h
  · rw [List.mem_map] at h
    obtain ⟨e, he, rfl⟩ := h
    exact toLower_ne_NULL_BYTE e (fun hc2 => hnul (hc2 ▸ he))
  · rw [h]; decide

/-- The entries stored by `load_words` are the results of `load_word` on the
lines of the file, in order. -/
theorem load_words_getElem? :
    ∀ (dictionary : List (List Char)) (dictSize : Nat) (words : List (List Char)),
      load_words dictionary dictSize = some words →
      words.length = dictSize ∧
        ∀ i, i < dictSize → words[i]? = (dictionary[i]?).bind load_word := by
  intro dictionary
  induction dictionary with
  | nil =>
    intro dictSize words h
    cases dictSize with
    | zero =>
      simp only [load_words, Option.some.injEq] at h
      subst h
      exact ⟨rfl, fun i hi => by omega⟩
    | succ k => simp [load_words] at h
  | cons loaded rest ih =>
    intro dictSize words h
    cases dictSize with
    | zero =>
      simp only [load_words, Option.some.injEq] at h
      subst h
      exact ⟨rfl, fun i hi => by omega⟩
    | succ k =>
      simp only [load_words, Option.bind_eq_bind, Option.pure_def] at h
      cases hw : load_word loaded with
      | none => rw [hw] at h; simp at h
      | some word =>
        rw [hw, Option.some_bind] at h
        cases hws : load_words rest k with
        | none => rw [hws] at h; simp at h
        | some ws =>
          rw [hws, Option.some_bind, Option.some.injEq] at h
          subst h
          obtain ⟨hlen, hget⟩ := ih k ws hws
          refine ⟨by simp [hlen], ?_⟩
          intro i hi
          cases i with
          | zero => simp [hw]
          | succ i =>
            simp only [List.getElem?_cons_succ]
            exact hget i (by omega)

theorem ne_APOSTROPHE_of_isAlpha (c : Char) (h : c.isAlpha = true) : c ≠ APOSTROPHE := by
  intro hc
  rw [hc] at h
  exact absurd h (by decide)

theorem ne_NULL_BYTE_of_isAlpha (c : Char) (h : c.isAlpha = true) : c ≠ NULL_BYTE := by
  intro hc
  rw [hc] at h
  exact absurd h (by decide)

/-- C14: a dictionary line made of a non-empty sequence of letters `w`, an
apostrophe, `s` and the line terminator is stored as the lowercase of `w`
followed by `s`, one character shorter than the entry without its line
terminator; a line with no apostrophe is stored as its lowercase form without
the line terminator; and the entries stored by `load_words` are just these, line
by line. -/
theorem load_words_possessive (w : List Char) :
    (w ≠ [] → (∀ c ∈ w, c.isAlpha = true) →
      load_word (w ++ [APOSTROPHE, 's', NEWLINE]) = some (w.map Char.toLower ++ ['s']) ∧
      (w.map Char.toLower ++ ['s']).length + 1 = (w ++ [APOSTROPHE, 's']).length) ∧
    (APOSTROPHE ∉ w → NULL_BYTE ∉ w →
      load_word (w ++ [NEWLINE]) = some (w.map Char.toLower)) ∧
    (∀ (dictionary : List (List Char)) (dictSize : Nat) (words : List (List Char)) (i : Nat),
      load_words dictionary dictSize = some words → i < dictSize →
      words[i]? = (dictionary[i]?).bind load_word) := by
  refine ⟨?_, ?_, ?_⟩
  · intro _ hw
    refine ⟨?_, by simp⟩
    exact load_word_apostrophe w 's'
      (fun h => ne_APOSTROPHE_of_isAlpha _ (hw _ h) rfl)
      (fun h => ne_NULL_BYTE_of_isAlpha _ (hw _ h) rfl) (by decide)
  · intro hap hnul
    exact load_word_plain w hap hnul
  · intro dictionary dictSize words i hload hi
    exact (load_words_getElem? dictionary dictSize words hload).2 i hi

/-- An instance of C14: the file with the lines "cat's" and "Crane" is loaded as
"cats" and "crane". -/
theorem load_words_possessive_witness :
    load_words [line_cats, line_Crane] 2 = some [['c', 'a', 't', 's'], crane] ∧
    ['c', 'a', 't'] ≠ [] ∧ (∀ c ∈ ['c', 'a', 't'], c.isAlpha = true) ∧
    (load_word (['c', 'a', 't'] ++ [APOSTROPHE, 's', NEWLINE]) =
        some (['c', 'a', 't'].map Char.toLower ++ ['s']) ∧
      (['c', 'a', 't'].map Char.toLower ++ ['s']).length + 1 =
        (['c', 'a', 't'] ++ [APOSTROPHE, 's']).length) ∧
    APOSTROPHE ∉ ['C', 'r', 'a', 'n', 'e'] ∧ NULL_BYTE ∉ ['C', 'r', 'a', 'n', 'e'] ∧
    load_word (['C', 'r', 'a', 'n', 'e'] ++ [NEWLINE]) =
      some (['C', 'r', 'a', 'n', 'e'].map Char.toLower) ∧
    ([['c', 'a', 't', 's'], crane] : List (List Char))[1]? =
      (([line_cats, line_Crane] : List (List Char))[1]?).bind load_word :=
  ⟨by decide, by decide, by decide,
    (load_words_possessive ['c', 'a', 't']).1 (by decide) (by decide),
    by decide, by decide,
    (load_words_possessive ['C', 'r', 'a', 'n', 'e']).2.1 (by decide) (by decide),
    (load_words_possessive []).2.2 [line_cats, line_Crane] 2 [['c', 'a', 't', 's'], crane] 1
      (by decide) (by decide)⟩

/-- The code at the failing input of C15: the dictionary line "don't" is stored
as "dons", not as "dont": the apostrophe is overwritten with `s` and the last
letter is cut off (lines 53-59). -/
theorem load_words_dont :
    load_word line_dont = some ['d', 'o', 'n', 's'] ∧
    load_words [line_dont] 1 = some [['d', 'o', 'n', 's']] ∧
    load_word line_dont ≠ some ['d', 'o', 'n', 't'] := by
  decide

/-! ## The calls of `check_guess` made by `play_game` -/

/-- C20: whenever `play_game` calls `check_guess(guess, answer, wordLength)`,
the answer, as returned by `get_random_word`, and the guess, as left in the
buffer by `validate_input` from a line read by `fgets`, have exactly
`wordLength` characters, and the call stays inside its buffers (it returns);
the loop as a whole runs without an access outside an object. -/
theorem check_guess_calls_in_bounds (n maxGuesses : Nat) (words : List (List Char))
    (draws : List Nat) (stdin : List (List Char)) (answer : List Char)
    (hlines : ∀ l ∈ stdin, isLine l)
    (hpick : get_random_word words words.length n draws = Run.returns answer) :
    answer.length = n ∧
    (∀ w ∈ validatedGuesses n words stdin,
      w.length = n ∧ ∃ r, check_guess w answer n = some r) ∧
    (∃ fin, play_game_session n maxGuesses words answer stdin = some fin) ∧
    (∀ dictionary : List (List Char),
      load_words dictionary (get_dict_size dictionary) = some words →
      ∃ gameResult,
        play_game_from_file n maxGuesses dictionary draws stdin = Run.returns gameResult) := by
  have hans : answer.length = n := (get_random_word_returns words _ n answer draws hpick).2
  refine ⟨hans, ?_, ?_, ?_⟩
  rotate_left 2
  · intro dictionary hload
    have hlen := (load_words_getElem? dictionary _ words hload).1
    rw [hlen] at hpick
    refine ⟨expected_code maxGuesses answer (validatedGuesses n words stdin), ?_⟩
    unfold play_game_from_file
    simp only [hload, hpick, play_game_eq n maxGuesses words answer stdin hans hlines]
  · intro w hw
    unfold validatedGuesses at hw
    rw [List.mem_filterMap] at hw
    obtain ⟨line, hline, hg⟩ := hw
    obtain ⟨v, hv, ha, hb⟩ := guessOf_eq_some n words line w hg
    obtain ⟨v2, hv2, hword⟩ := validate_input_of_line line n words (hlines line hline)
    rw [hv] at hv2
    have hvv : v = v2 := Option.some.inj hv2
    subst hvv
    obtain ⟨hlen, hisw⟩ := hword ha
    rw [hb] at hlen hisw
    exact ⟨hlen, check_guess_isSome w answer n hlen hans
      (fun c hc => ne_BLANK_of_isLower c (hisw c hc))⟩
  · obtain ⟨fin, hfin, _⟩ :=
      game_loop_run n words answer hans stdin (initial_session maxGuesses) hlines rfl rfl
    exact ⟨fin, hfin⟩

/-- An instance of C20: with the dictionary "crane", "crate" and the draw 1 the
answer is "crate", and the call of `check_guess` for the guess "CrAnE" stays in
bounds. -/
theorem check_guess_calls_in_bounds_witness :
    get_random_word smallDict smallDict.length 5 [1] = Run.returns crate ∧
    validatedGuesses 5 smallDict [line_cat, line_CrAnE] = [crane] ∧
    (∀ l ∈ [line_cat, line_CrAnE], isLine l) ∧
    play_game_from_file 5 6 [line_Crane, line_crate] [1] [line_cat, line_CrAnE] =
      Run.returns 1 ∧
    crate.length = 5 ∧
    (∀ w ∈ validatedGuesses 5 smallDict [line_cat, line_CrAnE],
      w.length = 5 ∧ ∃ r, check_guess w crate 5 = some r) ∧
    (∃ fin, play_game_session 5 6 smallDict crate [line_cat, line_CrAnE] = some fin) ∧
    (∀ dictionary : List (List Char),
      load_words dictionary (get_dict_size dictionary) = some smallDict →
      ∃ gameResult,
        play_game_from_file 5 6 dictionary [1] [line_cat, line_CrAnE] =
          Run.returns gameResult) :=
  ⟨by decide, by decide, by decide, by decide,
    check_guess_calls_in_bounds 5 6 smallDict [1] [line_cat, line_CrAnE] crate
      (by decide) (by decide)⟩

/-! ## `validate_args` -/

theorem isDigit_iff (c : Char) : c.isDigit = true ↔ 48 ≤ c.toNat ∧ c.toNat ≤ 57 := by
  simp [Char.isDigit, Char.toNat, UInt32.le_def, UInt32.toNat, BitVec.le_def]

/-- The value of `atoi` on a string of one character. -/
theorem atoi_single (c : Char) :
    atoi [c] = if c.isDigit = true then ((c.toNat - 48 : Nat) : Int) else 0 := by
  unfold atoi
  by_cases hsp : isspace c = true
  · have hnd : ¬ c.isDigit = true := by
      rw [isDigit_iff]
      unfold isspace at hsp
      simp only [Bool.or_eq_true, decide_eq_true_eq, Bool.and_eq_true] at hsp
      omega
    simp [List.dropWhile, hsp, hnd, digits_value]
  · have ht : List.dropWhile isspace [c] = [c] := by simp [List.dropWhile, hsp]
    simp only [ht, List.head?_cons, Option.some.injEq, List.tail_cons]
    by_cases hm : c = '-'
    · subst hm
      simp [digits_value]
    · by_cases hp : c = '+'
      · subst hp
        simp [digits_value]
      · simp only [hm, hp, if_false, digits_value]
        by_cases hd : c.isDigit = true
        · simp [hd]
        · simp [hd]

theorem toDigits_digit (k : Nat) (h3 : 3 ≤ k) (h9 : k ≤ 9) :
    Nat.toDigits 10 k = [Char.ofNat (48 + k)] := by
  interval_cases k <;> decide

theorem flag_value_bad_digit (k : Nat) (h3 : 3 ≤ k) (h9 : k ≤ 9) (initial : Nat) :
    flag_value_bad (some (Nat.toDigits 10 k)) initial initial = false ∧
      (atoi (Nat.toDigits 10 k)).toNat = k := by
  have hb : ∀ v : List Char, flag_value_bad (some v) initial initial =
      (decide (v.length > 1) || decide (atoi v = 0) || decide (atoi v < MIN) ||
        decide (atoi v > MAX)) := by
    intro v
    simp [flag_value_bad]
  rw [hb]
  interval_cases k <;> decide

theorem flag_value_bad_other (v : List Char) (initial : Nat)
    (h : ∀ k, 3 ≤ k → k ≤ 9 → v ≠ Nat.toDigits 10 k) :
    flag_value_bad (some v) initial initial = true := by
  unfold flag_value_bad
  cases v with
  | nil => simp [atoi, digits_value]
  | cons c rest =>
    cases rest with
    | cons d rest => simp
    | nil =>
      simp only [List.length_singleton, gt_iff_lt, lt_self_iff_false, decide_False,
        Bool.false_or, ne_eq, not_true_eq_false, Bool.or_false, atoi_single, MIN, MAX]
      by_cases hd : c.isDigit = true
      · simp only [hd, if_true]
        rw [isDigit_iff] at hd
        by_contra hgood
        simp only [Bool.or_eq_true, decide_eq_true_eq, not_or, not_lt] at hgood
        obtain ⟨⟨_, hlo⟩, hhi⟩ := hgood
        have hk3 : 3 ≤ c.toNat - 48 := by omega
        have hk9 : c.toNat - 48 ≤ 9 := by omega
        apply h (c.toNat - 48) hk3 hk9
        rw [toDigits_digit _ hk3 hk9]
        congr 1
        apply toNat_injective
        rw [toNat_ofNat_small _ (by omega)]
        omega
      · simp [hd]

theorem length_le_one_of_not_bad (v : List Char) (current initial : Nat)
    (h : flag_value_bad (some v) current initial = false) : v.length ≤ 1 := by
  unfold flag_value_bad at h
  simp only [Bool.or_eq_false_iff, decide_eq_false_iff_not, not_lt] at h
  omega

/-- What `validate_args` does on a command line made of the program name, the
flag `-len` and one more token. -/
theorem validate_args_len (prog v : List Char) (h1 : prog ≠ len_flag) (h2 : prog ≠ max_flag) :
    validate_args [prog, len_flag, v] default_settings =
      if flag_value_bad (some v) 5 5 = true then Run.exits 1
      else Run.returns { default_settings with wordLength := (atoi v).toNat } := by
  have hr : List.range 3 = [0, 1, 2] := by decide
  have hlm : len_flag ≠ max_flag := by decide
  by_cases hb : flag_value_bad (some v) 5 5 = true
  · simp [validate_args, hr, args_loop, args_step, h1, h2, hb, default_settings, DEFAULT_LEN]
  · have hb2 : flag_value_bad (some v) 5 5 = false := by simpa using hb
    have hlen := length_le_one_of_not_bad v 5 5 hb2
    have hv1 : v ≠ len_flag := by
      intro hc; rw [hc] at hlen; simp [len_flag] at hlen
    have hv2 : v ≠ max_flag := by
      intro hc; rw [hc] at hlen; simp [max_flag] at hlen
    simp [validate_args, hr, args_loop, args_step, h1, h2, hb2, hv1, hv2, default_settings,
      DEFAULT_LEN]

/-- What `validate_args` does on a command line made of the program name, the
flag `-max` and one more token. -/
theorem validate_args_max (prog v : List Char) (h1 : prog ≠ len_flag) (h2 : prog ≠ max_flag) :
    validate_args [prog, max_flag, v] default_settings =
      if flag_value_bad (some v) 6 6 = true then Run.exits 1
      else Run.returns { default_settings with maxGuesses := (atoi v).toNat } := by
  have hr : List.range 3 = [0, 1, 2] := by decide
  have hml : max_flag ≠ len_flag := by decide
  by_cases hb : flag_value_bad (some v) 6 6 = true
  · simp [validate_args, hr, args_loop, args_step, h1, h2, hb, hml, default_settings,
      DEFAULT_MAX]
  · have hb2 : flag_value_bad (some v) 6 6 = false := by simpa using hb
    have hlen := length_le_one_of_not_bad v 6 6 hb2
    have hv1 : v ≠ len_flag := by
      intro hc; rw [hc] at hlen; simp [len_flag] at hlen
    have hv2 : v ≠ max_flag := by
      intro hc; rw [hc] at hlen; simp [max_flag] at hlen
    simp [validate_args, hr, args_loop, args_step, h1, h2, hb2, hv1, hv2, hml,
      default_settings, DEFAULT_MAX]

/-- A flag that is the last argument has no value: usage exit. -/
theorem validate_args_flag_last (prog flag : List Char) (h1 : prog ≠ len_flag)
    (h2 : prog ≠ max_flag) (hf : flag = len_flag ∨ flag = max_flag) :
    validate_args [prog, flag] default_settings = Run.exits 1 := by
  have hr : List.range 2 = [0, 1] := by decide
  have hml : max_flag ≠ len_flag := by decide
  rcases hf with hf | hf
  · subst hf
    simp [validate_args, hr, args_loop, args_step, h1, h2, flag_value_bad]
  · subst hf
    simp [validate_args, hr, args_loop, args_step, h1, h2, hml, flag_value_bad]

/-- C12: with the defaults 5 and 6, on the command line made of the program
name, `-len` and a token `v`, `validate_args` sets `wordLength` to `k` and
leaves the other settings at their defaults when `v` is the decimal numeral of a
number `k` in 3..9, and exits with the usage message and status 1 when `v` is
not such a numeral or is missing; the same holds for `-max` and `maxGuesses`. -/
theorem validate_args_flag_value (prog v : List Char)
    (h1 : prog ≠ len_flag) (h2 : prog ≠ max_flag) :
    (∀ k, 3 ≤ k → k ≤ 9 → v = Nat.toDigits 10 k →
      validate_args [prog, len_flag, v] default_settings =
        Run.returns { default_settings with wordLength := k }) ∧
    ((∀ k, 3 ≤ k → k ≤ 9 → v ≠ Nat.toDigits 10 k) →
      validate_args [prog, len_flag, v] default_settings = Run.exits 1) ∧
    validate_args [prog, len_flag] default_settings = Run.exits 1 ∧
    (∀ k, 3 ≤ k → k ≤ 9 → v = Nat.toDigits 10 k →
      validate_args [prog, max_flag, v] default_settings =
        Run.returns { default_settings with maxGuesses := k }) ∧
    ((∀ k, 3 ≤ k → k ≤ 9 → v ≠ Nat.toDigits 10 k) →
      validate_args [prog, max_flag, v] default_settings = Run.exits 1) ∧
    validate_args [prog, max_flag] default_settings = Run.exits 1 := by
  refine ⟨?_, ?_, ?_, ?_, ?_, ?_⟩
  · intro k h3 h9 hv
    obtain ⟨hb, hk⟩ := flag_value_bad_digit k h3 h9 5
    rw [validate_args_len prog v h1 h2, hv, hb, hk]
    simp
  · intro hv
    rw [validate_args_len prog v h1 h2, flag_value_bad_other v 5 hv]
    simp
  · exact validate_args_flag_last prog len_flag h1 h2 (Or.inl rfl)
  · intro k h3 h9 hv
    obtain ⟨hb, hk⟩ := flag_value_bad_digit k h3 h9 6
    rw [validate_args_max prog v h1 h2, hv, hb, hk]
    simp
  · intro hv
    rw [validate_args_max prog v h1 h2, flag_value_bad_other v 6 hv]
    simp
  · exact validate_args_flag_last prog max_flag h1 h2 (Or.inr rfl)

/-- An instance of C12: `-len 7` sets the word length to 7, `-len 5` to 5, and
`-len 12`, `-len x` and `-len 2` exit with status 1. -/
theorem validate_args_flag_value_witness :
    validate_args [wordle, len_flag, ['5']] default_settings =
      Run.returns { default_settings with wordLength := 5 } ∧
    validate_args [wordle, len_flag, ['1', '2']] default_settings = Run.exits 1 ∧
    validate_args [wordle, len_flag, ['x']] default_settings = Run.exits 1 ∧
    validate_args [wordle, len_flag, ['2']] default_settings = Run.exits 1 ∧
    wordle ≠ len_flag ∧ wordle ≠ max_flag ∧ ['7'] = Nat.toDigits 10 7 ∧
    validate_args [wordle, len_flag, ['7']] default_settings =
      Run.returns { default_settings with wordLength := 7 } ∧
    validate_args [wordle, max_flag, ['7']] default_settings =
      Run.returns { default_settings with maxGuesses := 7 } ∧
    validate_args [wordle, len_flag] default_settings = Run.exits 1 :=
  ⟨by decide, by decide, by decide, by decide, by decide, by decide, by decide,
    (validate_args_flag_value wordle ['7'] (by decide) (by decide)).1 7 (by decide)
      (by decide) (by decide),
    (validate_args_flag_value wordle ['7'] (by decide) (by decide)).2.2.2.1 7 (by decide)
      (by decide) (by decide),
    (validate_args_flag_value wordle ['7'] (by decide) (by decide)).2.2.1⟩

/-- The code at the failing inputs of C13: a second `-len` after an explicit
`-len 5` is accepted (and wins), as is a second `-max` after `-max 6`, and a
second dictionary token after one that spells the default path: the tests of
lines 339, 351 and 361 compare with the default values and so do not see a
first occurrence that gave the default. -/
theorem validate_args_duplicate_accepted :
    validate_args [wordle, len_flag, ['5'], len_flag, ['7']] default_settings =
      Run.returns { default_settings with wordLength := 7 } ∧
    validate_args [wordle, max_flag, ['6'], max_flag, ['7']] default_settings =
      Run.returns { default_settings with maxGuesses := 7 } ∧
    validate_args [wordle, default_dictionary, dict_path] default_settings =
      Run.returns { default_settings with dictionaryLoc := dict_path } ∧
    validate_args [wordle, len_flag, ['7'], len_flag, ['5']] default_settings =
      Run.exits 1 := by
  decide

/-- C17 as stated fails: the command line with `-len 5` is not rejected, and
neither is the one with `-max 6`; both return the default settings. -/
theorem validate_args_explicit_default_not_rejected :
    validate_args [wordle, len_flag, ['5']] default_settings ≠ Run.exits 1 ∧
    validate_args [wordle, max_flag, ['6']] default_settings ≠ Run.exits 1 ∧
    validate_args [wordle, len_flag, ['5']] default_settings = Run.returns default_settings ∧
    validate_args [wordle, max_flag, ['6']] default_settings =
      Run.returns default_settings := by
  decide

/-- C17, amended: started with the defaults 5 and 6, `validate_args` accepts the
command line made of the program name, `-len` and `5`, and leaves `wordLength`
at 5 and the other settings at their defaults; likewise for `-max` and `6`. -/
theorem validate_args_explicit_default (prog : List Char)
    (h1 : prog ≠ len_flag) (h2 : prog ≠ max_flag) :
    validate_args [prog, len_flag, ['5']] default_settings = Run.returns default_settings ∧
    validate_args [prog, max_flag, ['6']] default_settings =
      Run.returns default_settings := by
  constructor
  · rw [validate_args_len prog ['5'] h1 h2]
    have hb : flag_value_bad (some ['5']) 5 5 = false := by decide
    have hk : (atoi ['5']).toNat = 5 := by decide
    rw [hb, hk]
    rfl
  · rw [validate_args_max prog ['6'] h1 h2]
    have hb : flag_value_bad (some ['6']) 6 6 = false := by decide
    have hk : (atoi ['6']).toNat = 6 := by decide
    rw [hb, hk]
    rfl

/-- An instance of the amended C17, for the program name "wordle". -/
theorem validate_args_explicit_default_witness :
    wordle ≠ len_flag ∧ wordle ≠ max_flag ∧
    validate_args [wordle, len_flag, ['5']] default_settings = Run.returns default_settings ∧
    validate_args [wordle, max_flag, ['6']] default_settings =
      Run.returns default_settings :=
  ⟨by decide, by decide, validate_args_explicit_default wordle (by decide) (by decide)⟩

/-! ## `main` -/

/-- The values that `play_game` returns. -/
theorem play_game_codes (n maxGuesses : Nat) (words : List (List Char))
    (answer : List Char) (stdin : List (List Char)) (gameResult : Nat)
    (h : play_game n maxGuesses words answer stdin = some gameResult) :
    gameResult = 0 ∨ gameResult = 1 ∨ gameResult = 3 := by
  unfold play_game at h
  cases hs : play_game_session n maxGuesses words answer stdin with
  | none => rw [hs] at h; simp at h
  | some fin =>
    rw [hs, Option.map_some', Option.some.injEq] at h
    rw [← h]
    unfold exit_code
    by_cases h1 : fin.correctGuess = true
    · simp [h1]
    · by_cases h2 : fin.eofQuit = true
      · simp [h1, h2]
      · simp [h1, h2]

theorem play_game_from_file_codes (n maxGuesses : Nat) (dictionary : List (List Char))
    (draws : List Nat) (stdin : List (List Char)) (gameResult : Nat)
    (h : play_game_from_file n maxGuesses dictionary draws stdin = Run.returns gameResult) :
    gameResult = 0 ∨ gameResult = 1 ∨ gameResult = 3 := by
  unfold play_game_from_file at h
  cases hl : load_words dictionary (get_dict_size dictionary) with
  | none => rw [hl] at h; simp at h
  | some words =>
    rw [hl] at h
    simp only at h
    cases hr : get_random_word words (get_dict_size dictionary) n draws with
    | returns answer =>
      rw [hr] at h
      simp only at h
      cases hp : play_game n maxGuesses words answer stdin with
      | none => rw [hp] at h; simp at h
      | some code =>
        rw [hp] at h
        simp only [Run.returns.injEq] at h
        rw [← h]
        exact play_game_codes n maxGuesses words answer stdin code hp
    | exits status => rw [hr] at h; simp at h
    | spinning => rw [hr] at h; simp at h
    | fault => rw [hr] at h; simp at h

/-- C11 as stated fails: with a readable dictionary and end of input on the
first turn, `play_game` returns 1 and the exit status of `main` is 3. -/
theorem main_exit_status_on_eof :
    validate_args [wordle, dict_path] default_settings =
      Run.returns { default_settings with dictionaryLoc := dict_path } ∧
    play_game_from_file 5 6 [line_crate] [0] [] = Run.returns 1 ∧
    main [wordle, dict_path] one_file [0] [] = Run.returns 3 := by
  decide

/-- C11, amended: for every session started by `main` with a readable
dictionary, the exit status is 0 when `play_game` returns 0 (the word is
guessed) and 3 for the other values that `play_game` returns, 1 (end of input)
as well as 3 (guesses exhausted). -/
theorem main_exit_status (argv : List (List Char))
    (fs : List Char → Option (List (List Char))) (draws : List Nat)
    (stdin : List (List Char)) (st : Settings) (dictionary : List (List Char))
    (gameResult : Nat)
    (hargs : validate_args argv default_settings = Run.returns st)
    (hfs : fs st.dictionaryLoc = some dictionary) (hpath : st.dictionaryLoc ≠ [])
    (hgame : play_game_from_file st.wordLength st.maxGuesses dictionary draws stdin =
      Run.returns gameResult) :
    (gameResult = 0 ∨ gameResult = 1 ∨ gameResult = 3) ∧
    (gameResult = 0 → main argv fs draws stdin = Run.returns 0) ∧
    (gameResult = 1 → main argv fs draws stdin = Run.returns 3) ∧
    (gameResult = 3 → main argv fs draws stdin = Run.returns 3) := by
  have hmain : main argv fs draws stdin =
      if gameResult = 0 then Run.returns 0 else Run.returns 3 := by
    unfold main
    simp only [hargs, hfs, hpath, if_false, hgame]
  refine ⟨play_game_from_file_codes _ _ _ _ _ _ hgame, ?_, ?_, ?_⟩
  · intro h; rw [hmain, if_pos h]
  · intro h; rw [hmain, if_neg (by omega)]
  · intro h; rw [hmain, if_neg (by omega)]

/-- Instances of the amended C11: the exit status is 0 when "crate" is guessed,
and 3 when the input ends at once. -/
theorem main_exit_status_witness :
    main [wordle, dict_path] one_file [0] [line_crate] = Run.returns 0 ∧
    validate_args [wordle, dict_path] default_settings =
      Run.returns { default_settings with dictionaryLoc := dict_path } ∧
    one_file dict_path = some [line_crate] ∧ dict_path ≠ [] ∧
    play_game_from_file 5 6 [line_crate] [0] [] = Run.returns 1 ∧
    ((1 = 0 ∨ 1 = 1 ∨ 1 = 3) ∧
      (1 = 0 → main [wordle, dict_path] one_file [0] [] = Run.returns 0) ∧
      (1 = 1 → main [wordle, dict_path] one_file [0] [] = Run.returns 3) ∧
      (1 = 3 → main [wordle, dict_path] one_file [0] [] = Run.returns 3)) :=
  ⟨by decide, by decide, by decide, by decide, by decide,
    main_exit_status [wordle, dict_path] one_file [0] []
      { default_settings with dictionaryLoc := dict_path } [line_crate] 1
      (by decide) (by decide) (by decide) (by decide)⟩

end Wordle
